import Mathlib

/-!
Verification development for the bgp-anomaly-detection repository.

The Python sources are shallowly embedded: the frozen `AS` dataclass
(src/src/bgp_anomaly_detection/autonomous_system.py), the `MRTParser`
path-statistics pipeline (src/src/bgp_anomaly_detection/mrt_file.py) and the
`Machine` training/prediction engine (src/src/bgp_anomaly_detection/machine.py)
become Lean structures and functions; Python dictionaries become association
lists, frozensets become `Finset`s, exceptions become `Option`/`Except`.
-/

namespace BGPAnomaly

/- ===================== Python-semantics helpers ===================== -/

/-- Decimal value of a character under the digit classes accepted by Python's
built-in `int` parser.  Python accepts every Unicode decimal digit (category
Nd); this embedding covers the ASCII digits and the Arabic-Indic digits
U+0660..U+0669, the ranges exercised in this development. -/
def pyDigitVal (c : Char) : Option Nat :=
  if 48 ≤ c.toNat ∧ c.toNat ≤ 57 then some (c.toNat - 48)
  else if 0x660 ≤ c.toNat ∧ c.toNat ≤ 0x669 then some (c.toNat - 0x660)
  else none

/-- Accumulating evaluation of a run of digit characters. -/
def pyDigitsValCore : Nat → List Char → Option Nat
  | acc, [] => some acc
  | acc, c :: cs =>
    match pyDigitVal c with
    | some d => pyDigitsValCore (acc * 10 + d) cs
    | none => none

/-- Value of a non-empty run of digit characters; `none` on the empty run or on
any non-digit character. -/
def pyDigitsVal (cs : List Char) : Option Nat :=
  match cs with
  | [] => none
  | _ :: _ => pyDigitsValCore 0 cs

/-- Strip leading and trailing whitespace characters, as Python's `int` does
with its string argument before parsing. -/
def stripWs (cs : List Char) : List Char :=
  ((cs.dropWhile Char.isWhitespace).reverse.dropWhile Char.isWhitespace).reverse

/-- Sign handling of Python's `int`: one optional leading sign, then a
non-empty run of decimal digits. -/
def pySignedDigits : List Char → Option Int
  | [] => none
  | c :: rest =>
    if c = '+' then (pyDigitsVal rest).map Int.ofNat
    else if c = '-' then (pyDigitsVal rest).map (fun k => -Int.ofNat k)
    else (pyDigitsVal (c :: rest)).map Int.ofNat

/-- Python's built-in `int` applied to the character list of a string:
surrounding whitespace is stripped, one optional sign is consumed, and the
remainder must be a non-empty run of decimal digits. -/
def pyIntParseChars (cs : List Char) : Option Int :=
  pySignedDigits (stripWs cs)

/-- Python's built-in `int` applied to a string (`int(self.id)` in
`AS.__post_init__`). -/
def pyIntParse (s : String) : Option Int :=
  pyIntParseChars s.toList

/-- Digit characters of a natural number in decimal, most significant first:
the character list of Python's `str` on a non-negative int. -/
def natDecimalList (n : Nat) : List Char :=
  if h : n < 10 then [Char.ofNat (48 + n)]
  else natDecimalList (n / 10) ++ [Char.ofNat (48 + n % 10)]
  decreasing_by exact Nat.div_lt_self (by omega) (by omega)

/-- Python's `str` on an int: decimal digits, with a leading minus sign for
negative values. -/
def pyStrOfInt (n : Int) : String :=
  if n < 0 then String.mk ('-' :: natDecimalList n.natAbs)
  else String.mk (natDecimalList n.toNat)

/- ===================== AS profile (frozen dataclass) ===================== -/

/-- The frozen `AS` dataclass of
src/src/bgp_anomaly_detection/autonomous_system.py: per-snapshot profile of one
Autonomous System.  The three frozensets are modelled as `Finset`s. -/
structure ASProf where
  id : String
  location : String
  mid_path_count : Nat
  end_path_count : Nat
  path_sizes : Finset (Nat × Nat)
  announced_prefixes : Finset String
  neighbours : Finset String
deriving DecidableEq

/-- `AS.__post_init__`: construction fails (Python raises
`ValueError: Invalid AS identifier`) exactly when `int(id)` fails, and
otherwise stores `str(int(id))` as the id. -/
def mkAS (i loc : String) (mid endc : Nat) (ps : Finset (Nat × Nat))
    (ann nb : Finset String) : Option ASProf :=
  match pyIntParse i with
  | none => none
  | some n =>
    some { id := pyStrOfInt n, location := loc, mid_path_count := mid,
           end_path_count := endc, path_sizes := ps,
           announced_prefixes := ann, neighbours := nb }

/-- `AS.times_seen`. -/
def ASProf.times_seen (a : ASProf) : Nat :=
  a.mid_path_count + a.end_path_count

/-- `AS.mean_path_size`: weighted average of path sizes, `0.0` on an empty
multiset.  Python's float division is modelled as exact rational division. -/
def ASProf.mean_path_size (a : ASProf) : ℚ :=
  let total : Nat := a.path_sizes.sum (fun p => p.2)
  if total = 0 then 0
  else (a.path_sizes.sum (fun p => p.1 * p.2) : ℚ) / (total : ℚ)

/-- Modelled from the source's `ip_address` classification of
`prefix.split('/')[0]`: the address part is IPv6 exactly when it contains a
colon, IPv4 otherwise. -/
def isIPv4Prefix (p : String) : Bool :=
  !(((p.splitOn "/").headD "").toList.any (fun c => c = ':'))

/-- `AS.ipv4_count`. -/
def ASProf.ipv4_count (a : ASProf) : Nat :=
  (a.announced_prefixes.filter (fun p => isIPv4Prefix p = true)).card

/-- `AS.ipv6_count`. -/
def ASProf.ipv6_count (a : ASProf) : Nat :=
  (a.announced_prefixes.filter (fun p => isIPv4Prefix p = false)).card

/-- `AS.total_prefixes`. -/
def ASProf.total_prefixes (a : ASProf) : Nat :=
  a.announced_prefixes.card

/-- `AS.total_neighbours`. -/
def ASProf.total_neighbours (a : ASProf) : Nat :=
  a.neighbours.card

/- ===================== JSON export / import of one AS ===================== -/

/-- Ordering used to enumerate the `path_sizes` frozenset when exporting. -/
def pairLe (p q : Nat × Nat) : Prop :=
  p.1 < q.1 ∨ (p.1 = q.1 ∧ p.2 ≤ q.2)

instance : DecidableRel pairLe := fun p q => by
  unfold pairLe; infer_instance

instance : IsTrans (Nat × Nat) pairLe :=
  ⟨fun _ _ _ h1 h2 => by rcases h1 with h | ⟨h, h'⟩ <;> rcases h2 with g | ⟨g, g'⟩ <;>
    simp only [pairLe] <;> omega⟩

instance : IsAntisymm (Nat × Nat) pairLe :=
  ⟨fun p q h1 h2 => by
    rcases h1 with h | ⟨h, h'⟩ <;> rcases h2 with g | ⟨g, g'⟩ <;>
      [skip; skip; skip; exact Prod.ext h (by omega)] <;> omega⟩

instance : IsTotal (Nat × Nat) pairLe :=
  ⟨fun p q => by unfold pairLe; omega⟩

/-- Canonical enumeration of a pair frozenset (`tuple(self.path_sizes)`). -/
def sortPairs (s : Finset (Nat × Nat)) : List (Nat × Nat) :=
  s.sort pairLe

/-- Canonical enumeration of a string frozenset (`tuple(...)`). -/
def sortStrings (s : Finset String) : List String :=
  s.sort (· ≤ ·)

/-- The `path` section of the AS export object. -/
structure ASExportPath where
  mid_path_count : Nat
  end_path_count : Nat
  mean_path_size : ℚ
  path_sizes : List (Nat × Nat)
deriving DecidableEq

/-- The `prefix` section of the AS export object. -/
structure ASExportPrefix where
  total_prefixes : Nat
  ipv4_count : Nat
  ipv6_count : Nat
  announced_prefixes : List String
deriving DecidableEq

/-- The `neighbour` section of the AS export object. -/
structure ASExportNeighbour where
  total_neighbours : Nat
  neighbours : List String
deriving DecidableEq

/-- The AS export object written by `AS.export_json`. -/
structure ASExport where
  location : String
  times_seen : Nat
  path_info : ASExportPath
  prefix_info : ASExportPrefix
  neighbour_info : ASExportNeighbour
deriving DecidableEq

/-- `AS.export_json` of src/src/bgp_anomaly_detection/autonomous_system.py.
The `tuple(...)` enumerations of the frozensets are modelled as their
canonically sorted element lists. -/
def ASProf.export_json (a : ASProf) : ASExport :=
  { location := a.location,
    times_seen := a.times_seen,
    path_info :=
      { mid_path_count := a.mid_path_count,
        end_path_count := a.end_path_count,
        mean_path_size := a.mean_path_size,
        path_sizes := sortPairs a.path_sizes },
    prefix_info :=
      { total_prefixes := a.total_prefixes,
        ipv4_count := a.ipv4_count,
        ipv6_count := a.ipv6_count,
        announced_prefixes := sortStrings a.announced_prefixes },
    neighbour_info :=
      { total_neighbours := a.total_neighbours,
        neighbours := sortStrings a.neighbours } }

/-- The per-AS body of `MRTParser.import_json`
(src/src/bgp_anomaly_detection/mrt_file.py lines 334-347): rebuild the
frozensets from the serialized enumerations and construct `AS` from the map
key `as_id` and the decoded fields. -/
def import_json_as (as_id : String) (d : ASExport) : Option ASProf :=
  mkAS as_id d.location d.path_info.mid_path_count d.path_info.end_path_count
    d.path_info.path_sizes.toFinset
    d.prefix_info.announced_prefixes.toFinset
    d.neighbour_info.neighbours.toFinset

/- ===================== MRT parser: per-AS mutable records ===================== -/

/-- One value of the parser's mutable `_as_map` dictionary
(src/src/bgp_anomaly_detection/mrt_file.py lines 410-417): a `Counter` becomes
an association list from path length to occurrence count, the two sets become
`Finset`s. -/
structure ASRec where
  location : String
  mid_path_count : Nat
  end_path_count : Nat
  path_sizes : List (Nat × Nat)
  announced_prefixes : Finset String
  neighbours : Finset String
deriving DecidableEq

/-- The parser's `_as_map` dictionary: an insertion-ordered association list. -/
abbrev ASMap : Type := List (String × ASRec)

/-- Dictionary lookup. -/
def lookupRec (m : ASMap) (k : String) : Option ASRec :=
  match m with
  | [] => none
  | (k', r) :: rest => if k' = k then some r else lookupRec rest k

/-- Membership test (`as_id in self._as_map`). -/
def containsKey (m : ASMap) (k : String) : Bool :=
  (lookupRec m k).isSome

/-- Dictionary insertion of a fresh key (Python appends it in iteration order). -/
def insertRec (m : ASMap) (k : String) (r : ASRec) : ASMap :=
  (m : List (String × ASRec)) ++ [(k, r)]

/-- In-place mutation of the record stored under an existing key. -/
def updateRec (m : ASMap) (k : String) (f : ASRec → ASRec) : ASMap :=
  (m : List (String × ASRec)).map (fun p => (p.1, if p.1 = k then f p.2 else p.2))

/-- `Counter[key] += 1`: bump the count stored for `k`, creating it at 1. -/
def incCount (c : List (Nat × Nat)) (k : Nat) : List (Nat × Nat) :=
  match c with
  | [] => [(k, 1)]
  | (k', n) :: rest => if k' = k then (k', n + 1) :: rest else (k', n) :: incCount rest k

/-- Count stored in a `Counter` association list (0 when absent). -/
def getCount (c : List (Nat × Nat)) (k : Nat) : Nat :=
  match c with
  | [] => 0
  | (k', n) :: rest => if k' = k then n else getCount rest k

/-- `as_id.startswith("{")`: for the one-character pattern this is exactly a
first-character test (and `False` on the empty string). -/
def startsWithBrace (s : String) : Bool :=
  s.toList.head? == some (Char.ofNat 123)

/-- A freshly created `_as_map` entry: zeroed counters and empty sets, location
from the external AS-to-country lookup. -/
def emptyRec (loc : String) : ASRec :=
  { location := loc, mid_path_count := 0, end_path_count := 0,
    path_sizes := [], announced_prefixes := ∅, neighbours := ∅ }

/-- `self._as_map[as_id]["end_path_count"] += 1`. -/
def bumpEnd (m : ASMap) (k : String) : ASMap :=
  updateRec m k (fun r => { r with end_path_count := r.end_path_count + 1 })

/-- `self._as_map[as_id]["mid_path_count"] += 1`. -/
def bumpMid (m : ASMap) (k : String) : ASMap :=
  updateRec m k (fun r => { r with mid_path_count := r.mid_path_count + 1 })

/-- `self._as_map[a]["neighbours"].add(b)`. -/
def addNeighbour (m : ASMap) (a b : String) : ASMap :=
  updateRec m a (fun r => { r with neighbours := insert b r.neighbours })

/-- The origin update of `_parse_data`: `path_sizes[n] += 1` and
`announced_prefixes.add(prefix)`. -/
def recordOrigin (m : ASMap) (k : String) (n : Nat) (pfx : String) : ASMap :=
  updateRec m k (fun r =>
    { r with path_sizes := incCount r.path_sizes n,
             announced_prefixes := insert pfx r.announced_prefixes })

/- ===================== MRT parser: the per-path update ===================== -/

/-- First pass of `MRTParser._parse_data` (lines 400-418): walk the token list,
keep known AS ids, replace set-notation tokens (starting with a brace) by a gap
(`none`), and lazily create a fresh record for every other unseen token.
Returns the updated map and the `valid_path` list. -/
def registerPath (loc : String → String) (m : ASMap) :
    List String → ASMap × List (Option String)
  | [] => (m, [])
  | as_id :: rest =>
    if containsKey m as_id then
      let p := registerPath loc m rest
      (p.1, some as_id :: p.2)
    else if startsWithBrace as_id then
      let p := registerPath loc m rest
      (p.1, none :: p.2)
    else
      let p := registerPath loc (insertRec m as_id (emptyRec (loc as_id))) rest
      (p.1, some as_id :: p.2)

/-- Second pass of `MRTParser._parse_data` (lines 421-433): at position `i` of
a path of length `n`, credit the hop — each consecutive valid pair joins the
other's neighbour set, endpoint hops (`i == 0 or i == n - 1`) gain an
`end_path_count`, interior hops a `mid_path_count`; gap hops are skipped. -/
def creditHops (n : Nat) : ASMap → Nat → List (Option String) → ASMap
  | m, _, [] => m
  | m, i, none :: rest => creditHops n m (i + 1) rest
  | m, i, some a :: rest =>
    let m1 :=
      match rest.head? with
      | some (some b) => addNeighbour (addNeighbour m a b) b a
      | _ => m
    let m2 := if i = 0 ∨ i = n - 1 then bumpEnd m1 a else bumpMid m1 a
    creditHops n m2 (i + 1) rest

/-- `MRTParser._parse_data` on one announced prefix and one merged-path token
list: register the hops, credit them, then update the origin hop `path[-1]`.
On an empty token list Python's `path[-1]` raises `IndexError`; the result is
`none` (no state survives, matching the exception aborting the parse). -/
def parse_data (loc : String → String) (m : ASMap) (pfx : String)
    (tokens : List String) : Option ASMap :=
  let m1 := (registerPath loc m tokens).1
  let vp := (registerPath loc m tokens).2
  let n := vp.length
  let m2 := creditHops n m1 0 vp
  match vp.getLast? with
  | none => none
  | some none => some m2
  | some (some origin) => some (recordOrigin m2 origin (n - 1) pfx)

/-- Python list slicing `l[:n]` for an integer `n`: non-negative `n` takes the
first `n` elements, negative `n` drops `-n` elements from the end (clamped). -/
def pySliceTo (l : List String) (n : Int) : List String :=
  if 0 ≤ n then l.take n.toNat
  else l.take (l.length - (-n).toNat)

/-- `MRTParser._merge_as_path` (lines 559-570), at the granularity of the
whitespace-token lists that `_parse_data` recovers with `.split()`: when the
AS4 path is non-empty, `self._as_path[:n] + self._as4_path` with
`n = len(self._as_path) - len(self._as4_path)` under Python slice semantics;
otherwise the AS path unchanged.  (The string join and re-split are the
identity on whitespace-free non-empty tokens.) -/
def merge_as_path (as_path as4_path : List String) : List String :=
  if as4_path.length ≠ 0 then
    pySliceTo as_path ((as_path.length : Int) - (as4_path.length : Int)) ++ as4_path
  else as_path

/-- The merge described by the specification's words: the last
`len(AS4_PATH)` hops of AS_PATH are replaced by AS4_PATH when AS4_PATH is
non-empty.  Stated for comparison with `merge_as_path`. -/
def merge_as_path_spec (as_path as4_path : List String) : List String :=
  if as4_path.length ≠ 0 then
    as_path.take (as_path.length - as4_path.length) ++ as4_path
  else as_path

/-- A parsed-route record as seen by `_parse_data`: one announced prefix with
its merged-path token list.  Processing a stream of such records folds
`parse_data`, aborting (like the Python exception) when a record fails. -/
def processRecords (loc : String → String) :
    ASMap → List (String × List String) → Option ASMap
  | m, [] => some m
  | m, (pfx, tokens) :: rest =>
    match parse_data loc m pfx tokens with
    | none => none
    | some m' => processRecords loc m' rest

/- ===================== MRT parser: peer table and TABLE_DUMP_V2 ===================== -/

/-- One entry of the peer index table (`peer_entries`). -/
structure PeerEntry where
  peer_ip : String
  peer_as : Nat
deriving DecidableEq

/-- The module-level `peer` variable of src/src/bgp_anomaly_detection/mrt_file.py
line 200: `None` until some parser instance processes a PEER_INDEX_TABLE
record.  It is shared by every `MRTParser` instance in the process. -/
def PeerGlobal : Type := Option (List PeerEntry)

/-- An AS-path segment as delivered by the decoding collaborator
(`attr['value']` for AS_PATH / AS4_PATH). -/
inductive PathSeg where
  | seq (vals : List String)
  | aset (vals : List String)
  | confedSeq (vals : List String)
  | confedSet (vals : List String)
deriving DecidableEq

/-- A path attribute of one RIB entry, restricted to the attribute types
`_bgp_attr` reads in the TABLE_DUMP_V2 flow (MP_REACH_NLRI / MP_UNREACH_NLRI
return early there because `self._type != 'BGP4MP'`). -/
inductive PathAttr where
  | nextHop (v : String)
  | asPath (segs : List PathSeg)
  | as4Path (segs : List PathSeg)
deriving DecidableEq

/-- One element of `m['rib_entries']`. -/
structure RibEntry where
  peer_index : Nat
  path_attributes : List PathAttr
deriving DecidableEq

/-- A TABLE_DUMP_V2 record as handled by `_td_v2`: a peer index table or a RIB
entry record (the four RIB subtypes behave identically there). -/
inductive TdV2Record where
  | peerIndexTable (entries : List PeerEntry)
  | rib (pfx : String) (entries : List RibEntry)
deriving DecidableEq

/-- The Python errors the embedded parser steps can raise. -/
inductive PyErr where
  | typeError
  | indexError
deriving DecidableEq

/-- Token rendering of one AS-path segment in `_bgp_attr`: AS_SET as a single
braced token, AS_CONFED_SEQUENCE with markers glued to its first and last
element (raising `IndexError` on an empty segment, as `seg['value'][0]`
would), AS_CONFED_SET as a single bracketed token, AS_SEQUENCE spliced. -/
def segTokens : PathSeg → Except PyErr (List String)
  | .seq vals => .ok vals
  | .aset vals => .ok ["\x7b" ++ String.intercalate "," vals ++ "\x7d"]
  | .confedSeq [] => .error .indexError
  | .confedSeq (v0 :: rest) =>
    .ok (("(" ++ v0) :: (rest.dropLast ++ [((v0 :: rest).getLast (by simp)) ++ ")"]))
  | .confedSet vals => .ok ["[" ++ String.intercalate "," vals ++ "]"]

/-- Concatenated token list of a segment list (the `_as_path` / `_as4_path`
accumulation loop of `_bgp_attr`). -/
def segsTokens : List PathSeg → Except PyErr (List String)
  | [] => .ok []
  | s :: rest => do
    let t ← segTokens s
    let ts ← segsTokens rest
    return t ++ ts

/-- The per-instance parser fields touched by the TABLE_DUMP_V2 flow. -/
structure ParserInst where
  as_map : ASMap
  peer_ip : String
  peer_as : Nat
  as_path : List String
  next_hop : List String
  as4_path : List String
deriving DecidableEq

/-- A fresh `MRTParser` instance (`__init__`). -/
def newParserInst : ParserInst :=
  { as_map := ∅, peer_ip := "", peer_as := 0,
    as_path := [], next_hop := [], as4_path := [] }

/-- The `_bgp_attr` update of the instance fields for one path attribute. -/
def bgpAttr (ps : ParserInst) : PathAttr → Except PyErr ParserInst
  | .nextHop v => .ok { ps with next_hop := ps.next_hop ++ [v] }
  | .asPath segs => do
    let ts ← segsTokens segs
    return { ps with as_path := ts }
  | .as4Path segs => do
    let ts ← segsTokens segs
    return { ps with as4_path := ts }

/-- Attribute-processing loop of `_td_v2` over one RIB entry. -/
def bgpAttrs : ParserInst → List PathAttr → Except PyErr ParserInst
  | ps, [] => .ok ps
  | ps, a :: rest => do
    let ps' ← bgpAttr ps a
    bgpAttrs ps' rest

/-- Inner next-hop loop of `_parse_routes` in the TABLE_DUMP_V2 flow
(`self._type == 'TABLE_DUMP2'`, so the withdrawn loop contributes nothing):
one `_parse_data` call per collected next hop. -/
def parseNlriPerHop (loc : String → String) (pfx : String) :
    ParserInst → List String → Except PyErr ParserInst
  | ps, [] => .ok ps
  | ps, _ :: hops =>
    match parse_data loc ps.as_map pfx (merge_as_path ps.as_path ps.as4_path) with
    | none => .error .indexError
    | some m' => parseNlriPerHop loc pfx { ps with as_map := m' } hops

/-- The NLRI loop of `_parse_routes`: each announced prefix is parsed once per
collected next hop. -/
def parseRoutes (loc : String → String) :
    ParserInst → List String → Except PyErr ParserInst
  | ps, [] => .ok ps
  | ps, pfx :: rest =>
    match parseNlriPerHop loc pfx ps ps.next_hop with
    | .error e => .error e
    | .ok ps' => parseRoutes loc ps' rest

/-- Peer lookup of `_td_v2` line 499: `peer[entry['peer_index']]` raises
`TypeError` when the module-level `peer` is still `None` and `IndexError` when
the index is out of range. -/
def resolvePeer (g : PeerGlobal) (idx : Nat) : Except PyErr PeerEntry :=
  match g with
  | none => .error .typeError
  | some entries =>
    match entries.get? idx with
    | none => .error .indexError
    | some e => .ok e

/-- The rib-entry loop of `_td_v2` (lines 497-506): resolve the peer through
the module-level global, reset the per-entry fields, process the attributes,
then parse the routes. -/
def ribEntries (loc : String → String) (g : PeerGlobal) (nlri : List String) :
    ParserInst → List RibEntry → Except PyErr ParserInst
  | ps, [] => .ok ps
  | ps, e :: rest => do
    let pe ← resolvePeer g e.peer_index
    let ps1 := { ps with peer_ip := pe.peer_ip, peer_as := pe.peer_as,
                         as_path := [], next_hop := [], as4_path := [] }
    let ps2 ← bgpAttrs ps1 e.path_attributes
    let ps3 ← parseRoutes loc ps2 nlri
    ribEntries loc g nlri ps3 rest

/-- `MRTParser._td_v2` on one record: a PEER_INDEX_TABLE record overwrites the
module-level `peer` global; a RIB record appends its prefix to `_nlri` and
processes its rib entries against whatever the global currently holds. -/
def tdV2 (loc : String → String) (g : PeerGlobal) (ps : ParserInst) :
    TdV2Record → Except PyErr (PeerGlobal × ParserInst)
  | .peerIndexTable entries => .ok (some entries, ps)
  | .rib pfx entries => do
    let ps' ← ribEntries loc g [pfx] ps entries
    return (g, ps')

/- ===================== Snapshot ===================== -/

/-- The frozen `SnapShot` dataclass of src/src/bgp_anomaly_detection/mrt_file.py:
source file path, the timestamp parsed from the file name (encoded as minutes,
any strictly monotone encoding of the parsed datetime), and the frozen AS map. -/
structure Snapshot where
  file_path : String
  timestamp : Nat
  as_map : List (String × ASProf)
deriving DecidableEq

/-- `SnapShot.__eq__`: equality is decided solely by the snapshot timestamps. -/
def snapShotEq (a b : Snapshot) : Bool :=
  a.timestamp == b.timestamp

/-- `set(snapshots)` in `Machine.train`: deduplication keeping first
occurrences.  (Python's set dedups by `__hash__` then `__eq__`; the dataclass
hash covers all fields, so structurally equal snapshots collapse reliably while
same-timestamp snapshots from different files in general remain distinct
elements.) -/
def pySetDedup (l : List Snapshot) : List Snapshot :=
  l.foldl (fun acc s => if s ∈ acc then acc else acc ++ [s]) []

/-- `sorted(snapshots)` in `Machine.train` line 94.  `SnapShot` is a dataclass
with the default `order=False` and defines only `__eq__`, so no `__lt__`
exists: Python's sort performs no comparison on zero or one element and raises
`TypeError` on its first comparison otherwise. -/
def sortSnapshots (l : List Snapshot) : Except PyErr (List Snapshot) :=
  match l with
  | [] => .ok []
  | [s] => .ok [s]
  | _ => .error .typeError

/- ===================== Machine: training ===================== -/

/-- A Python value of one tracked AS property: a number, a string (location),
or the `path_sizes` frozenset of (length, count) pairs. -/
inductive PVal where
  | num (q : ℚ)
  | str (s : String)
  | counter (c : List (Nat × Nat))
deriving DecidableEq

/-- Numeric reading of a property value (tracked numeric properties are always
`num`). -/
def pvalNum : PVal → ℚ
  | .num q => q
  | _ => 0

/-- Association-list lookup (Python dict read). -/
def alookup {β : Type} (k : String) : List (String × β) → Option β
  | [] => none
  | (k', v) :: rest => if k' = k then some v else alookup k rest

/-- Association-list write (Python `d[k] = v`): overwrite in place, else
append. -/
def aset {β : Type} (k : String) (v : β) : List (String × β) → List (String × β)
  | [] => [(k, v)]
  | (k', v') :: rest => if k' = k then (k', v) :: rest else (k', v') :: aset k v rest

/-- Association-list in-place modification of an existing key. -/
def amodify {β : Type} (k : String) (f : β → β) : List (String × β) → List (String × β)
  | [] => []
  | (k', v) :: rest => if k' = k then (k', f v) :: rest else (k', v) :: amodify k f rest

/-- `as_property_names` of `Machine.train`: the data descriptors of `AS`
discovered by `getmembers` (which returns members sorted alphabetically),
minus `("id", "announced_prefixes", "neighbours")`. -/
def trainPropNames : List String :=
  ["end_path_count", "ipv4_count", "ipv6_count", "location", "mean_path_size",
   "mid_path_count", "path_sizes", "times_seen", "total_neighbours",
   "total_prefixes"]

/-- `as_property_names` of `Machine.predict`: `path_sizes` is additionally
excluded there. -/
def predictPropNames : List String :=
  ["end_path_count", "ipv4_count", "ipv6_count", "location", "mean_path_size",
   "mid_path_count", "times_seen", "total_neighbours", "total_prefixes"]

/-- `getattr(as_instance, property)` for the tracked properties.  The
`path_sizes` frozenset is delivered in its canonical enumeration. -/
def getProp (a : ASProf) : String → PVal
  | "location" => .str a.location
  | "mid_path_count" => .num a.mid_path_count
  | "end_path_count" => .num a.end_path_count
  | "path_sizes" => .counter (sortPairs a.path_sizes)
  | "times_seen" => .num a.times_seen
  | "mean_path_size" => .num a.mean_path_size
  | "ipv4_count" => .num a.ipv4_count
  | "ipv6_count" => .num a.ipv6_count
  | "total_neighbours" => .num a.total_neighbours
  | "total_prefixes" => .num a.total_prefixes
  | _ => .num 0

/-- One value of the `as_history` dictionary of `Machine.train`. -/
structure HistEntry where
  history : List (String × List PVal)
  announced_prefixes : Finset String
  neighbours : Finset String
deriving DecidableEq

/-- `as_history_template`: an empty history list per tracked property. -/
def histTemplate : List (String × List PVal) :=
  trainPropNames.map (fun p => (p, []))

/-- The per-property append loop of `Machine.train` lines 125-126. -/
def appendHist (h : List (String × List PVal)) (a : ASProf) :
    List (String × List PVal) :=
  h.map (fun p => (p.1, p.2 ++ [getProp a p.1]))

/-- The per-AS body of the history-collection loop of `Machine.train`
lines 117-128: create the entry lazily, then append every property value and
union the two sets. -/
def histStep (hist : List (String × HistEntry)) (as_id : String) (a : ASProf) :
    List (String × HistEntry) :=
  let hist1 :=
    if (alookup as_id hist).isSome then hist
    else hist ++ [(as_id, { history := histTemplate, announced_prefixes := ∅,
                            neighbours := ∅ })]
  amodify as_id (fun he =>
    { history := appendHist he.history a,
      announced_prefixes := he.announced_prefixes ∪ a.announced_prefixes,
      neighbours := he.neighbours ∪ a.neighbours }) hist1

/-- The snapshot loop of `Machine.train` lines 115-128. -/
def buildHistory (snaps : List Snapshot) : List (String × HistEntry) :=
  snaps.foldl (fun hist s => s.as_map.foldl (fun h p => histStep h p.1 p.2) hist) []

/-- The 7-slot per-property statistics tuple
`(min_, max_, mean, std_d, skewness, slope, mode)` of `Machine.train`. -/
structure NumStats where
  min : ℚ
  max : ℚ
  mean : ℚ
  std_d : ℚ
  skewness : ℚ
  slope : ℚ
  mode : String
deriving DecidableEq

/-- The floating-point statistics kernel of `Machine.train` lines 162-174
(np.percentile quartiles, Tukey fences clipped to the sample range, np.mean,
np.std, scipy skew and the np.polyfit slope, the latter two zeroed on constant
sequences).  The training pipeline is modelled parametrically in this kernel;
every theorem below holds for an arbitrary kernel. -/
def NumKernel : Type :=
  List ℚ → NumStats

/-- The all-(-1) sentinel tuple recorded for `location` and for an empty pooled
`path_sizes` history. -/
def sentinelStats (mode : String) : NumStats :=
  { min := -1, max := -1, mean := -1, std_d := -1, skewness := -1, slope := -1,
    mode := mode }

/-- Occurrence count of a value in a history list. -/
def countOcc (l : List PVal) (v : PVal) : Nat :=
  (l.filter (fun x => x == v)).length

/-- First occurrences of each value, in encounter order (the insertion order of
`Counter(prty_history)`). -/
def firstOccs (l : List PVal) : List PVal :=
  l.foldl (fun acc v => if v ∈ acc then acc else acc ++ [v]) []

/-- `Counter(prty_history).most_common(1)[0][0]`: a value of maximal count;
`most_common` sorts by count descending and stably, so ties keep the earliest
first occurrence.  Empty histories never occur (every tracked AS appears in at
least one snapshot). -/
def pyMode (l : List PVal) : PVal :=
  (firstOccs l).foldl (fun best v =>
      match best with
      | none => some v
      | some b => if countOcc l v > countOcc l b then some v else best)
    none |>.getD (.str "")

/-- The `path_sizes` pooling loop of `Machine.train` lines 149-152: flatten the
per-snapshot counters into one sequence of individual path-length samples. -/
def flattenCounters (hist : List PVal) : List ℚ :=
  hist.foldl (fun acc v =>
    match v with
    | .counter c => acc ++ c.foldl (fun a p => a ++ List.replicate p.2 ((p.1 : ℚ))) []
    | _ => acc) []

/-- The per-property statistics computation of `Machine.train` lines 139-175:
`location` stores the mode with -1 numeric slots; `path_sizes` pools the
counters first and falls back to the sentinel on an empty pool; every other
property runs the numeric kernel on its history, with an empty string in the
mode slot. -/
def propStats (kern : NumKernel) (prty : String) (hist : List PVal) : NumStats :=
  if prty = "location" then
    let m := match pyMode hist with | .str s => s | _ => ""
    sentinelStats m
  else if prty = "path_sizes" then
    let pooled := flattenCounters hist
    if pooled.isEmpty then sentinelStats ""
    else { kern pooled with mode := "" }
  else
    { kern (hist.map pvalNum) with mode := "" }

/-- One value of the `train_data` dictionary. -/
structure TrainEntry where
  stats : List (String × NumStats)
  announced_prefixes : Finset String
  neighbours : Finset String
deriving DecidableEq

/-- The per-AS statistics block of `Machine.train` lines 131-175. -/
def computeEntry (kern : NumKernel) (he : HistEntry) : TrainEntry :=
  { stats := trainPropNames.map (fun p =>
      (p, propStats kern p ((alookup p he.history).getD []))),
    announced_prefixes := he.announced_prefixes,
    neighbours := he.neighbours }

/-- The `Machine` object: the training dataset and the `train_data`
dictionary. -/
structure Machine where
  dataset : List Snapshot
  train_data : List (String × TrainEntry)
deriving DecidableEq

/-- `Machine.__init__`. -/
def newMachine : Machine :=
  { dataset := [], train_data := [] }

/-- `Machine.train` (src/src/bgp_anomaly_detection/machine.py lines 84-177):
deduplicate the snapshots, replace `dataset` with them sorted, rebuild the
history, and write one `train_data` entry per AS in the history.  The write
loop starts from the machine's existing `train_data` dictionary — the source
never resets it.  A sort failure propagates and leaves the machine unchanged. -/
def train (kern : NumKernel) (mach : Machine) (snapshots : List Snapshot) :
    Except PyErr Machine :=
  match sortSnapshots (pySetDedup snapshots) with
  | .error e => .error e
  | .ok ds =>
    let hist := buildHistory ds
    .ok { dataset := ds,
          train_data := hist.foldl (fun td p => aset p.1 (computeEntry kern p.2) td)
            mach.train_data }

/- ===================== Machine: prediction ===================== -/

/-- One per-property prediction cell (`as_prediction_template`). -/
structure PredEntry where
  warning_level : Int
  behaviour : Int
deriving DecidableEq

/-- The per-property loop body of `Machine.predict` lines 204-230, parametric
in the normal CDF (`norm.cdf`, a strictly increasing map into (0, 1)):
a location mismatch adds warning 2 and skips the numeric checks; a numeric
value outside `[min_, max_]` adds 1; when the standard deviation is positive a
tail CDF probability of the z-score (below 0.05 or above 0.95) independently
adds 2; the behaviour label compares the slope against the fixed 0.1
threshold. -/
def predictProp (cdf : ℚ → ℚ) (prty : String) (obs : PVal) (st : NumStats) :
    PredEntry :=
  if prty = "location" then
    { warning_level :=
        (match obs with
         | .str s => if s ≠ st.mode then 2 else 0
         | _ => 2),
      behaviour := 0 }
  else
    let v := pvalNum obs
    let w1 : Int := if v < st.min ∨ v > st.max then 1 else 0
    let w2 : Int :=
      if st.std_d > 0 then
        let z := (v - st.mean) / st.std_d
        let probability := cdf z
        if probability < 1 / 20 ∨ probability > 19 / 20 then 2 else 0
      else 0
    let b : Int :=
      if st.slope > 1 / 10 then 1
      else if st.slope < -(1 / 10) then -1
      else 0
    { warning_level := w1 + w2, behaviour := b }

/-- The per-AS property loop of `Machine.predict` lines 200-230. -/
def predictAS (cdf : ℚ → ℚ) (te : TrainEntry) (a : ASProf) :
    List (String × PredEntry) :=
  predictPropNames.map (fun p =>
    (p, predictProp cdf p (getProp a p) ((alookup p te.stats).getD (sentinelStats ""))))

/-- `Machine.predict` (lines 179-237): ASes without training history predict
`None` (the "no data" sentinel); every other AS gets the per-property
dictionary. -/
def predict (cdf : ℚ → ℚ) (mach : Machine) (snap : Snapshot) :
    List (String × Option (List (String × PredEntry))) :=
  snap.as_map.map (fun p =>
    (p.1,
     match alookup p.1 mach.train_data with
     | none => none
     | some te => some (predictAS cdf te p.2)))

/- ===================== Map accessors and invariants ===================== -/

/-- `end_path_count` read through the parser map (0 for an absent AS). -/
def endCOf (m : ASMap) (k : String) : Nat :=
  ((lookupRec m k).map ASRec.end_path_count).getD 0

/-- `mid_path_count` read through the parser map (0 for an absent AS). -/
def midCOf (m : ASMap) (k : String) : Nat :=
  ((lookupRec m k).map ASRec.mid_path_count).getD 0

/-- `path_sizes[len]` read through the parser map (0 for an absent AS). -/
def psCountOf (m : ASMap) (k : String) (len : Nat) : Nat :=
  ((lookupRec m k).map (fun r => getCount r.path_sizes len)).getD 0

/-- Announced-prefix membership read through the parser map. -/
def annMemOf (m : ASMap) (k : String) (pfx : String) : Bool :=
  ((lookupRec m k).map (fun r => decide (pfx ∈ r.announced_prefixes))).getD false

/-- Total mid- plus end-path credit over all records of the map. -/
def totalMidEnd (m : ASMap) : Nat :=
  (m.map (fun p => p.2.mid_path_count + p.2.end_path_count)).sum

/-- The parser map is a dictionary: its keys are pairwise distinct. -/
def NodupKeys (m : ASMap) : Prop :=
  (m.map Prod.fst).Nodup

/-- Neighbour sets only name ASes that are keys of the map. -/
def closedNeighbours (m : ASMap) : Prop :=
  ∀ x rx, lookupRec m x = some rx → ∀ y ∈ rx.neighbours, containsKey m y = true

/-- Neighbour adjacency is symmetric between any two profiles of the map. -/
def symNeighbours (m : ASMap) : Prop :=
  ∀ x y rx ry, lookupRec m x = some rx → lookupRec m y = some ry →
    (y ∈ rx.neighbours ↔ x ∈ ry.neighbours)

/-- Per-path postcondition of `_parse_data` on a gap-free path: the hops of an
(L+1)-hop path receive exactly L+1 total mid/end credit, the origin hop gains
one `path_sizes` count at length L and the announced prefix, and (when the
hops are pairwise distinct ASes) the first and last hop each gain exactly one
`end_path_count` while every interior hop gains exactly one
`mid_path_count`. -/
def C1Post (m M : ASMap) (pfx : String) (tokens : List String) : Prop :=
  totalMidEnd M = totalMidEnd m + tokens.length ∧
  (∀ origin, tokens.getLast? = some origin →
    psCountOf M origin (tokens.length - 1) = psCountOf m origin (tokens.length - 1) + 1 ∧
    annMemOf M origin pfx = true) ∧
  (tokens.Nodup →
    ∀ j (hj : j < tokens.length),
      endCOf M (tokens.get ⟨j, hj⟩) =
        endCOf m (tokens.get ⟨j, hj⟩) +
          (if j = 0 ∨ j = tokens.length - 1 then 1 else 0) ∧
      midCOf M (tokens.get ⟨j, hj⟩) =
        midCOf m (tokens.get ⟨j, hj⟩) +
          (if j = 0 ∨ j = tokens.length - 1 then 0 else 1))

/- ===================== Concrete instances ===================== -/

/-- A location lookup table answering the unknown-country fallback. -/
def locZZ : String → String := fun _ => "ZZ"

/-- A numeric kernel usable for concrete runs (every theorem about training is
kernel-independent). -/
def kernZero : NumKernel := fun _ => sentinelStats ""

/-- Fallback profile for extracting concrete construction results. -/
def asDefault : ASProf :=
  { id := "0", location := "ZZ", mid_path_count := 0, end_path_count := 0,
    path_sizes := ∅, announced_prefixes := ∅, neighbours := ∅ }

/-- Concrete parse result for the C1 witness. -/
def c1m : ASMap :=
  (parse_data locZZ ∅ "10.0.0.0/8" ["10", "20", "30"]).getD ∅

/-- Concrete AS profile for the C5 witness. -/
def c5a : ASProf :=
  (mkAS "64496" "US" 3 4 {(2, 5), (3, 1)} {"10.0.0.0/8", "2001:db8::/32"}
    {"64497"}).getD asDefault

/-- Snapshot from one file at timestamp 100. -/
def c6snapA : Snapshot :=
  { file_path := "rrc00.20230716.0000.bz2", timestamp := 100, as_map := [] }

/-- Snapshot from a different file at the same timestamp 100. -/
def c6snapA2 : Snapshot :=
  { file_path := "route-views.20230716.0000.bz2", timestamp := 100, as_map := [] }

/-- Snapshot at the later timestamp 200. -/
def c6snapB : Snapshot :=
  { file_path := "rrc00.20230717.0000.bz2", timestamp := 200, as_map := [] }

/-- Concrete AS profile "1" appearing only in the first training call. -/
def c3asA : ASProf :=
  (mkAS "1" "ZZ" 0 1 {(0, 1)} {"10.0.0.0/8"} ∅).getD asDefault

/-- Concrete snapshot containing only AS "1". -/
def c3snapA : Snapshot :=
  { file_path := "rib.20230101.0000.bz2", timestamp := 1, as_map := [("1", c3asA)] }

/-- Concrete AS profile "2" appearing only in the second training call. -/
def c3asB : ASProf :=
  (mkAS "2" "ZZ" 0 1 {(0, 1)} {"10.1.0.0/16"} ∅).getD asDefault

/-- Concrete snapshot containing only AS "2". -/
def c3snapB : Snapshot :=
  { file_path := "rib.20230102.0000.bz2", timestamp := 2, as_map := [("2", c3asB)] }

/-- Machine after the first training call (on AS "1" only). -/
def c3mach1 : Machine :=
  (train kernZero newMachine [c3snapA]).toOption.getD newMachine

/-- Machine after the second training call (on AS "2" only). -/
def c3mach2 : Machine :=
  (train kernZero c3mach1 [c3snapB]).toOption.getD newMachine

/-- All AS ids appearing in a list of snapshots, with multiplicity. -/
def snapIds (snaps : List Snapshot) : List String :=
  (snaps.map (fun s => s.as_map.map Prod.fst)).join

/-- Machine obtained by training a fresh machine on the second snapshot only. -/
def c3machFresh : Machine :=
  (train kernZero newMachine [c3snapB]).toOption.getD newMachine

/-- Concrete peer table left behind by one parser instance. -/
def c9tbl : List PeerEntry :=
  [{ peer_ip := "10.0.0.1", peer_as := 65001 }]

/-- Concrete RIB record processed by a second parser instance. -/
def c9rib : TdV2Record :=
  .rib "10.0.0.0/8"
    [{ peer_index := 0,
       path_attributes := [.asPath [.seq ["1", "2"]], .nextHop "192.0.2.1"] }]

/-- Result state of the second instance when it runs after the first. -/
def c9inst : ParserInst :=
  ((tdV2 locZZ (some c9tbl) newParserInst c9rib).toOption.getD
    (none, newParserInst)).2

/-- Concrete record stream for the C8 witness. -/
def c8recs : List (String × List String) :=
  [("10.0.0.0/8", ["1", "2", "3"]), ("10.1.0.0/16", ["4", "2", "1"])]

/-- Concrete parse result for the C8 witness. -/
def c8m : ASMap :=
  (processRecords locZZ ∅ c8recs).getD ∅

/- ===================== Lemmas: decimal printing and parsing ===================== -/

theorem natDecimalList_ne_nil (n : Nat) : natDecimalList n ≠ [] := by
  rw [natDecimalList]
  split <;> simp

theorem natDecimalList_chars (n : Nat) :
    ∀ c ∈ natDecimalList n, ∃ d, d < 10 ∧ c = Char.ofNat (48 + d) := by
  induction n using Nat.strong_induction_on with
  | _ n ih =>
    rw [natDecimalList]
    split
    · next h =>
      intro c hc
      simp only [List.mem_singleton] at hc
      exact ⟨n, h, hc⟩
    · next h =>
      intro c hc
      rcases List.mem_append.mp hc with hc | hc
      · exact ih (n / 10) (Nat.div_lt_self (by omega) (by omega)) c hc
      · simp only [List.mem_singleton] at hc
        exact ⟨n % 10, Nat.mod_lt _ (by omega), hc⟩

theorem digit_pyDigitVal {d : Nat} (hd : d < 10) :
    pyDigitVal (Char.ofNat (48 + d)) = some d := by
  interval_cases d <;> rfl

theorem digit_not_ws {d : Nat} (hd : d < 10) :
    (Char.ofNat (48 + d)).isWhitespace = false := by
  interval_cases d <;> rfl

theorem digit_ne_plus {d : Nat} (hd : d < 10) : Char.ofNat (48 + d) ≠ '+' := by
  interval_cases d <;> decide

theorem digit_ne_minus {d : Nat} (hd : d < 10) : Char.ofNat (48 + d) ≠ '-' := by
  interval_cases d <;> decide

theorem dropWhile_of_head_neg {p : Char → Bool} {l : List Char}
    (h : ∀ c ∈ l, p c = false) : l.dropWhile p = l := by
  cases l with
  | nil => rfl
  | cons a l =>
    rw [List.dropWhile_cons, h a (List.mem_cons_self a l)]
    simp

theorem stripWs_of_no_ws {l : List Char}
    (h : ∀ c ∈ l, c.isWhitespace = false) : stripWs l = l := by
  unfold stripWs
  rw [dropWhile_of_head_neg h, dropWhile_of_head_neg, List.reverse_reverse]
  intro c hc
  exact h c (List.mem_reverse.mp hc)

theorem pyDigitsValCore_append (xs ys : List Char) (acc : Nat) :
    pyDigitsValCore acc (xs ++ ys) =
      match pyDigitsValCore acc xs with
      | some a => pyDigitsValCore a ys
      | none => none := by
  induction xs generalizing acc with
  | nil => rfl
  | cons c cs ih =>
    simp only [List.cons_append, pyDigitsValCore]
    cases pyDigitVal c with
    | none => rfl
    | some d => exact ih _

theorem pyDigitsValCore_natDecimalList (n : Nat) :
    ∀ acc, pyDigitsValCore acc (natDecimalList n) =
      some (acc * 10 ^ (natDecimalList n).length + n) := by
  induction n using Nat.strong_induction_on with
  | _ n ih =>
    intro acc
    rw [natDecimalList]
    split
    · next h =>
      simp only [pyDigitsValCore, digit_pyDigitVal h, List.length_singleton]
      norm_num
    · next h =>
      rw [pyDigitsValCore_append]
      rw [ih (n / 10) (Nat.div_lt_self (by omega) (by omega)) acc]
      simp only [pyDigitsValCore, digit_pyDigitVal (show n % 10 < 10 by omega),
        List.length_append, List.length_singleton]
      congr 1
      have hdm : 10 * (n / 10) + n % 10 = n := Nat.div_add_mod n 10
      have hstep : (acc * 10 ^ (natDecimalList (n / 10)).length + n / 10) * 10 + n % 10 =
          acc * 10 ^ ((natDecimalList (n / 10)).length + 1) + (10 * (n / 10) + n % 10) := by
        rw [pow_succ]; ring
      rw [hstep, hdm]

theorem pyDigitsVal_natDecimalList (n : Nat) :
    pyDigitsVal (natDecimalList n) = some n := by
  have hne := natDecimalList_ne_nil n
  unfold pyDigitsVal
  cases hl : natDecimalList n with
  | nil => exact absurd hl hne
  | cons c cs =>
    have := pyDigitsValCore_natDecimalList n 0
    rw [hl] at this
    simpa using this

theorem natDecimalList_no_ws (n : Nat) :
    ∀ c ∈ natDecimalList n, c.isWhitespace = false := by
  intro c hc
  obtain ⟨d, hd, rfl⟩ := natDecimalList_chars n c hc
  exact digit_not_ws hd

/-- Round trip of Python's decimal printing and parsing: `int(str(n)) == n`. -/
theorem pyIntParse_pyStrOfInt (n : Int) : pyIntParse (pyStrOfInt n) = some n := by
  unfold pyIntParse pyStrOfInt
  split
  · next hneg =>
    have htl : (String.mk ('-' :: natDecimalList n.natAbs)).toList =
        '-' :: natDecimalList n.natAbs := rfl
    rw [htl]
    unfold pyIntParseChars
    have hstrip : stripWs ('-' :: natDecimalList n.natAbs) =
        '-' :: natDecimalList n.natAbs := by
      apply stripWs_of_no_ws
      intro c hc
      rcases List.mem_cons.mp hc with rfl | hc
      · rfl
      · exact natDecimalList_no_ws _ c hc
    rw [hstrip]
    have hred : pySignedDigits ('-' :: natDecimalList n.natAbs) =
        (pyDigitsVal (natDecimalList n.natAbs)).map (fun k => -Int.ofNat k) := by
      simp [pySignedDigits]
    rw [hred, pyDigitsVal_natDecimalList, Option.map_some']
    congr 1
    rw [Int.ofNat_eq_natCast, Int.natCast_natAbs, abs_of_neg hneg, neg_neg]
  · next hneg =>
    have htl : (String.mk (natDecimalList n.toNat)).toList = natDecimalList n.toNat := rfl
    rw [htl]
    unfold pyIntParseChars
    have hstrip : stripWs (natDecimalList n.toNat) = natDecimalList n.toNat :=
      stripWs_of_no_ws (natDecimalList_no_ws _)
    rw [hstrip]
    cases hl : natDecimalList n.toNat with
    | nil => exact absurd hl (natDecimalList_ne_nil _)
    | cons c cs =>
      obtain ⟨d, hd, rfl⟩ := natDecimalList_chars n.toNat c (hl ▸ List.mem_cons_self c cs)
      simp only [pySignedDigits]
      rw [if_neg (digit_ne_plus hd), if_neg (digit_ne_minus hd)]
      rw [← hl, pyDigitsVal_natDecimalList, Option.map_some']
      congr 1
      rw [Int.ofNat_eq_natCast]
      omega

/- ===================== C7: AS identifier validation ===================== -/

/-- C7 (counterexample): the claim asserts that constructing an AS profile
from a string of non-ASCII decimal digits raises `InvalidIdentifier` in every
case; but Python's `int` accepts any Unicode decimal digits, so construction
from the Arabic-Indic digit string "٥" succeeds. -/
theorem c7_counterexample : (mkAS "٥" "ZZ" 0 0 ∅ ∅ ∅).isSome = true := by
  rfl

/-- C7 (amended): constructing an AS profile fails exactly when the id string
is not parseable by Python's `int` (which accepts any Unicode decimal digits),
and otherwise stores the canonical ASCII decimal string `str(int(id))`; in
particular construction from "AS100" and from "" fails, while a string of
non-ASCII decimal digits is accepted. -/
theorem c7_amended :
    (∀ i loc mid endc ps ann nb,
      mkAS i loc mid endc ps ann nb = none ↔ pyIntParse i = none) ∧
    (∀ i loc mid endc ps ann nb n, pyIntParse i = some n →
      mkAS i loc mid endc ps ann nb =
        some { id := pyStrOfInt n, location := loc, mid_path_count := mid,
               end_path_count := endc, path_sizes := ps,
               announced_prefixes := ann, neighbours := nb }) ∧
    (∀ loc mid endc ps ann nb,
      mkAS "AS100" loc mid endc ps ann nb = none ∧
      mkAS "" loc mid endc ps ann nb = none) := by
  refine ⟨?_, ?_, ?_⟩
  · intro i loc mid endc ps ann nb
    unfold mkAS
    cases pyIntParse i <;> simp
  · intro i loc mid endc ps ann nb n h
    unfold mkAS
    rw [h]
  · intro loc mid endc ps ann nb
    exact ⟨rfl, rfl⟩

/-- C7 (witness): the amended theorem applied to the Arabic-Indic digit string
"٥", whose parse is the integer 5. -/
theorem c7_amended_witness :
    pyIntParse "٥" = some 5 ∧
    mkAS "٥" "ZZ" 0 0 ∅ ∅ ∅ =
      some { id := pyStrOfInt 5, location := "ZZ", mid_path_count := 0,
             end_path_count := 0, path_sizes := ∅, announced_prefixes := ∅,
             neighbours := ∅ } :=
  ⟨rfl, c7_amended.2.1 "٥" "ZZ" 0 0 ∅ ∅ ∅ 5 rfl⟩

/- ===================== C4: AS4_PATH merging ===================== -/

/-- C4 (counterexample): the claim asserts that for every extracted token-list
pair the merged path equals AS_PATH with its last `len(AS4_PATH)` hops
replaced by AS4_PATH; at AS_PATH = ["1","2"], AS4_PATH = ["3","4","5"] the
code's Python slice `as_path[:-1]` keeps hop "1", so the merge keeps a hop the
replacement reading would drop. -/
theorem c4_counterexample :
    merge_as_path ["1", "2"] ["3", "4", "5"] = ["1", "3", "4", "5"] ∧
    merge_as_path_spec ["1", "2"] ["3", "4", "5"] = ["3", "4", "5"] :=
  ⟨rfl, rfl⟩

/-- C4 (amended): when AS4_PATH is empty the merged path is AS_PATH unchanged,
and whenever `len(AS4_PATH) ≤ len(AS_PATH)` the merged path is AS_PATH with
its last `len(AS4_PATH)` hops replaced by AS4_PATH; when AS4_PATH is longer
than AS_PATH, Python's negative slice instead keeps the first
`2·len(AS_PATH) − len(AS4_PATH)` hops. -/
theorem c4_amended (as_path as4_path : List String) :
    (as4_path = [] → merge_as_path as_path as4_path = as_path) ∧
    (as4_path.length ≤ as_path.length →
      merge_as_path as_path as4_path = merge_as_path_spec as_path as4_path) := by
  constructor
  · intro h
    subst h
    simp [merge_as_path]
  · intro hle
    unfold merge_as_path merge_as_path_spec
    by_cases h4 : as4_path.length = 0
    · simp [h4]
    · rw [if_pos h4, if_pos h4]
      unfold pySliceTo
      rw [if_pos (by omega)]
      congr 2
      omega

/-- C4 (witness): the amended theorem applied at AS_PATH = ["1","2","3"] with
AS4_PATH = ["9","8"] and with the empty AS4_PATH. -/
theorem c4_amended_witness :
    merge_as_path ["1", "2", "3"] ["9", "8"] =
      merge_as_path_spec ["1", "2", "3"] ["9", "8"] ∧
    merge_as_path ["1", "2", "3"] [] = ["1", "2", "3"] :=
  ⟨(c4_amended ["1", "2", "3"] ["9", "8"]).2 (by decide),
   (c4_amended ["1", "2", "3"] []).1 rfl⟩

/- ===================== C10: empty merged path ===================== -/

theorem registerPath_snd_length (loc : String → String) (m : ASMap)
    (tokens : List String) :
    ((registerPath loc m tokens).2).length = tokens.length := by
  induction tokens generalizing m with
  | nil => rfl
  | cons t ts ih =>
    unfold registerPath
    by_cases h1 : containsKey m t
    · simp only [h1, if_true]
      simp [ih]
    · simp only [h1, Bool.false_eq_true, if_false]
      by_cases h2 : startsWithBrace t
      · simp only [h2, if_true]
        simp [ih]
      · simp only [h2, Bool.false_eq_true, if_false]
        simp [ih]

/-- C10: the per-prefix update is total exactly on non-empty merged paths — a
RIB entry whose attributes yield no AS_PATH and no AS4_PATH hops merges to the
empty token list, on which `_parse_data` raises `IndexError` at `path[-1]`
(no statistics are recorded), while every non-empty token list is processed
without error. -/
theorem c10_empty_path_indexerror :
    (∀ loc m pfx, parse_data loc m pfx (merge_as_path [] []) = none) ∧
    (∀ loc m pfx tokens, tokens ≠ [] →
      (parse_data loc m pfx tokens).isSome = true) := by
  constructor
  · intro loc m pfx
    rfl
  · intro loc m pfx tokens hne
    have hlen : ((registerPath loc m tokens).2).length = tokens.length :=
      registerPath_snd_length loc m tokens
    have hvne : (registerPath loc m tokens).2 ≠ [] := by
      intro hcon
      rw [hcon] at hlen
      exact hne (List.length_eq_zero.mp hlen.symm)
    obtain ⟨x, hx⟩ := Option.isSome_iff_exists.mp
      (List.getLast?_isSome.mpr hvne)
    simp only [parse_data]
    rw [hx]
    cases x <;> rfl

/-- C10 (witness): the theorem applied to the single-hop token list
["64496"]. -/
theorem c10_witness :
    (parse_data locZZ ∅ "10.0.0.0/8" ["64496"]).isSome = true :=
  c10_empty_path_indexerror.2 locZZ ∅ "10.0.0.0/8" ["64496"] (by decide)

/- ===================== C6: snapshot equality and ordering ===================== -/

/-- C6: snapshot equality is decided solely by timestamp (same-moment
snapshots from different files compare equal), but the ordering half of the
claim fails in the code — `SnapShot` is a dataclass with the default
`order=False` and defines no `__lt__`, so `sorted` raises `TypeError` on any
two snapshots and `Machine.train` errors on every set of two or more distinct
snapshots. -/
theorem c6_snapshot_eq_sort :
    (∀ a b : Snapshot, snapShotEq a b = (a.timestamp == b.timestamp)) ∧
    snapShotEq c6snapA c6snapA2 = true ∧
    snapShotEq c6snapA c6snapB = false ∧
    sortSnapshots [c6snapA, c6snapB] = .error .typeError ∧
    train kernZero newMachine [c6snapA, c6snapB] = .error .typeError :=
  ⟨fun _ _ => rfl, rfl, rfl, rfl, rfl⟩

/- ===================== C9: shared peer-table global ===================== -/

/-- C9 (counterexample): the claim asserts two-run noninterference across
parser instances; but the peer table is the module-level `peer` global, so a
fresh instance's RIB record raises `TypeError` when no instance has processed
a peer index table, yet succeeds when another instance's PEER_INDEX_TABLE
record ran in between — the produced AS map differs between the two runs. -/
theorem c9_counterexample :
    tdV2 locZZ none newParserInst (.peerIndexTable c9tbl) =
      .ok (some c9tbl, newParserInst) ∧
    tdV2 locZZ none newParserInst c9rib = .error .typeError ∧
    tdV2 locZZ (some c9tbl) newParserInst c9rib = .ok (some c9tbl, c9inst) ∧
    c9inst.as_map.map Prod.fst = ["1", "2"] :=
  ⟨rfl, rfl, rfl, rfl⟩

/-- C9 (amended): the current peer-index table is process-wide state shared by
every parser instance — a PEER_INDEX_TABLE record overwrites the shared
global no matter which instance processes it, and a RIB entry is resolved
against whatever the shared global currently holds, raising `TypeError`
whenever it is still unset. -/
theorem c9_amended :
    (∀ loc g ps entries,
      tdV2 loc g ps (.peerIndexTable entries) = .ok (some entries, ps)) ∧
    (∀ loc ps pfx e rest,
      tdV2 loc none ps (.rib pfx (e :: rest)) = .error .typeError) ∧
    (∀ idx, resolvePeer none idx = .error .typeError) := by
  refine ⟨fun loc g ps entries => rfl, ?_, fun idx => rfl⟩
  intro loc ps pfx e rest
  rfl

/- ===================== C5: JSON round trip ===================== -/

/-- C5: importing the JSON export of any constructible AS profile restores the
profile on every field — id, location, both path counters, the full
path-size multiset and both the announced-prefix and neighbour sets. -/
theorem c5_json_roundtrip (i loc : String) (mid endc : Nat)
    (ps : Finset (Nat × Nat)) (ann nb : Finset String) (a : ASProf)
    (h : mkAS i loc mid endc ps ann nb = some a) :
    import_json_as a.id (ASProf.export_json a) = some a := by
  unfold mkAS at h
  cases hp : pyIntParse i with
  | none => rw [hp] at h; exact absurd h (by simp)
  | some n =>
    rw [hp] at h
    have ha : a = { id := pyStrOfInt n, location := loc, mid_path_count := mid,
                    end_path_count := endc, path_sizes := ps,
                    announced_prefixes := ann, neighbours := nb } := by
      exact (Option.some.injEq _ _).mp h |>.symm
    subst ha
    unfold import_json_as ASProf.export_json mkAS
    simp only [pyIntParse_pyStrOfInt]
    unfold sortPairs sortStrings
    simp only [Finset.sort_toFinset]

/-- C5 (witness): the round trip applied to a concrete profile with two
path-size pairs, one IPv4 and one IPv6 prefix, and one neighbour. -/
theorem c5_witness :
    mkAS "64496" "US" 3 4 {(2, 5), (3, 1)} {"10.0.0.0/8", "2001:db8::/32"}
      {"64497"} = some c5a ∧
    import_json_as c5a.id (ASProf.export_json c5a) = some c5a :=
  ⟨rfl, c5_json_roundtrip "64496" "US" 3 4 _ _ _ c5a rfl⟩

/- ===================== Lemmas: parser map primitives ===================== -/

theorem lookupRec_insertRec (m : ASMap) (k : String) (r : ASRec) (j : String) :
    lookupRec (insertRec m k r) j =
      match lookupRec m j with
      | some v => some v
      | none => if k = j then some r else none := by
  induction m with
  | nil => rfl
  | cons p m ih =>
    obtain ⟨k', r'⟩ := p
    by_cases h : k' = j
    · simp [insertRec, lookupRec, h]
    · simpa [insertRec, lookupRec, h] using ih

theorem lookupRec_updateRec (m : ASMap) (k : String) (f : ASRec → ASRec)
    (j : String) :
    lookupRec (updateRec m k f) j =
      if k = j then (lookupRec m j).map f else lookupRec m j := by
  induction m with
  | nil => by_cases h : k = j <;> simp [updateRec, lookupRec, h]
  | cons p m ih =>
    obtain ⟨k', r'⟩ := p
    by_cases h1 : k' = k
    · subst h1
      by_cases h2 : k' = j
      · subst h2
        simp [updateRec, lookupRec]
      · simpa [updateRec, lookupRec, h2] using ih
    · by_cases h2 : k' = j
      · subst h2
        have hk : ¬k = k' := fun hc => h1 hc.symm
        simp [updateRec, lookupRec, h1, hk]
      · simpa [updateRec, lookupRec, h1, h2] using ih

theorem containsKey_updateRec (m : ASMap) (k : String) (f : ASRec → ASRec)
    (j : String) : containsKey (updateRec m k f) j = containsKey m j := by
  unfold containsKey
  rw [lookupRec_updateRec]
  by_cases h : k = j
  · simp [h]
  · simp [h]

theorem containsKey_insertRec_mono (m : ASMap) (k : String) (r : ASRec)
    (j : String) (h : containsKey m j = true) :
    containsKey (insertRec m k r) j = true := by
  unfold containsKey at h ⊢
  rw [lookupRec_insertRec]
  obtain ⟨v, hv⟩ := Option.isSome_iff_exists.mp h
  simp [hv]

theorem containsKey_insertRec_self (m : ASMap) (k : String) (r : ASRec) :
    containsKey (insertRec m k r) k = true := by
  unfold containsKey
  rw [lookupRec_insertRec]
  cases h : lookupRec m k <;> simp

theorem keys_updateRec (m : ASMap) (k : String) (f : ASRec → ASRec) :
    (updateRec m k f).map Prod.fst = m.map Prod.fst := by
  unfold updateRec
  rw [List.map_map]
  rfl

theorem NodupKeys_updateRec (m : ASMap) (k : String) (f : ASRec → ASRec)
    (h : NodupKeys m) : NodupKeys (updateRec m k f) := by
  unfold NodupKeys at h ⊢
  rwa [keys_updateRec]

theorem not_containsKey_iff (m : ASMap) (k : String) :
    containsKey m k = false ↔ k ∉ m.map Prod.fst := by
  induction m with
  | nil => simp [containsKey, lookupRec]
  | cons p m ih =>
    obtain ⟨k', r'⟩ := p
    by_cases h : k' = k
    · subst h
      simp [containsKey, lookupRec]
    · simp only [containsKey, lookupRec, if_neg h, List.map_cons, List.mem_cons]
      rw [← containsKey]
      rw [ih]
      constructor
      · intro hk hc
        rcases hc with hc | hc
        · exact h hc.symm
        · exact hk hc
      · intro hk
        exact fun hc => hk (Or.inr hc)

theorem NodupKeys_insertRec (m : ASMap) (k : String) (r : ASRec)
    (hnd : NodupKeys m) (hk : containsKey m k = false) :
    NodupKeys (insertRec m k r) := by
  unfold NodupKeys at hnd ⊢
  unfold insertRec
  rw [List.map_append]
  apply List.Nodup.append hnd (by simp)
  intro x hx hy
  simp only [List.map_cons, List.map_nil, List.mem_singleton] at hy
  subst hy
  exact (not_containsKey_iff m x).mp hk hx

theorem updateRec_of_not_contains (m : ASMap) (k : String) (f : ASRec → ASRec)
    (h : containsKey m k = false) : updateRec m k f = m := by
  induction m with
  | nil => rfl
  | cons p m ih =>
    obtain ⟨k', r'⟩ := p
    by_cases hk : k' = k
    · subst hk
      simp [containsKey, lookupRec] at h
    · simp only [containsKey, lookupRec, if_neg hk] at h
      rw [← containsKey] at h
      simp [updateRec, hk, ih h]
      exact ih h

/- ===================== Lemmas: accessor preservation ===================== -/

theorem endCOf_insert_empty (m : ASMap) (k loc j : String) :
    endCOf (insertRec m k (emptyRec loc)) j = endCOf m j := by
  unfold endCOf
  rw [lookupRec_insertRec]
  cases h : lookupRec m j
  · by_cases hk : k = j <;> simp [hk, emptyRec]
  · simp

theorem midCOf_insert_empty (m : ASMap) (k loc j : String) :
    midCOf (insertRec m k (emptyRec loc)) j = midCOf m j := by
  unfold midCOf
  rw [lookupRec_insertRec]
  cases h : lookupRec m j
  · by_cases hk : k = j <;> simp [hk, emptyRec]
  · simp

theorem psCountOf_insert_empty (m : ASMap) (k loc j : String) (len : Nat) :
    psCountOf (insertRec m k (emptyRec loc)) j len = psCountOf m j len := by
  unfold psCountOf
  rw [lookupRec_insertRec]
  cases h : lookupRec m j
  · by_cases hk : k = j <;> simp [hk, emptyRec, getCount]
  · simp

theorem annMemOf_insert_empty (m : ASMap) (k loc j pfx : String) :
    annMemOf (insertRec m k (emptyRec loc)) j pfx = annMemOf m j pfx := by
  unfold annMemOf
  rw [lookupRec_insertRec]
  cases h : lookupRec m j
  · by_cases hk : k = j <;> simp [hk, emptyRec]
  · simp

theorem endCOf_update_pres (m : ASMap) (k : String) (f : ASRec → ASRec)
    (hf : ∀ r, (f r).end_path_count = r.end_path_count) (j : String) :
    endCOf (updateRec m k f) j = endCOf m j := by
  unfold endCOf
  rw [lookupRec_updateRec]
  by_cases hk : k = j
  · cases h : lookupRec m j <;> simp [hk, h, hf]
  · simp [hk]

theorem midCOf_update_pres (m : ASMap) (k : String) (f : ASRec → ASRec)
    (hf : ∀ r, (f r).mid_path_count = r.mid_path_count) (j : String) :
    midCOf (updateRec m k f) j = midCOf m j := by
  unfold midCOf
  rw [lookupRec_updateRec]
  by_cases hk : k = j
  · cases h : lookupRec m j <;> simp [hk, h, hf]
  · simp [hk]

theorem psCountOf_update_pres (m : ASMap) (k : String) (f : ASRec → ASRec)
    (hf : ∀ r, (f r).path_sizes = r.path_sizes) (j : String) (len : Nat) :
    psCountOf (updateRec m k f) j len = psCountOf m j len := by
  unfold psCountOf
  rw [lookupRec_updateRec]
  by_cases hk : k = j
  · cases h : lookupRec m j <;> simp [hk, h, hf]
  · simp [hk]

theorem annMemOf_update_pres (m : ASMap) (k : String) (f : ASRec → ASRec)
    (hf : ∀ r, (f r).announced_prefixes = r.announced_prefixes)
    (j pfx : String) :
    annMemOf (updateRec m k f) j pfx = annMemOf m j pfx := by
  unfold annMemOf
  rw [lookupRec_updateRec]
  by_cases hk : k = j
  · cases h : lookupRec m j <;> simp [hk, h, hf]
  · simp [hk]

theorem endCOf_update_other (m : ASMap) (k : String) (f : ASRec → ASRec)
    (j : String) (hj : k ≠ j) : endCOf (updateRec m k f) j = endCOf m j := by
  unfold endCOf
  rw [lookupRec_updateRec, if_neg hj]

theorem midCOf_update_other (m : ASMap) (k : String) (f : ASRec → ASRec)
    (j : String) (hj : k ≠ j) : midCOf (updateRec m k f) j = midCOf m j := by
  unfold midCOf
  rw [lookupRec_updateRec, if_neg hj]

theorem bumpEnd_endCOf_self (m : ASMap) (k : String)
    (h : containsKey m k = true) : endCOf (bumpEnd m k) k = endCOf m k + 1 := by
  unfold containsKey at h
  obtain ⟨r, hr⟩ := Option.isSome_iff_exists.mp h
  unfold endCOf bumpEnd
  rw [lookupRec_updateRec, if_pos rfl, hr]
  simp

theorem bumpMid_midCOf_self (m : ASMap) (k : String)
    (h : containsKey m k = true) : midCOf (bumpMid m k) k = midCOf m k + 1 := by
  unfold containsKey at h
  obtain ⟨r, hr⟩ := Option.isSome_iff_exists.mp h
  unfold midCOf bumpMid
  rw [lookupRec_updateRec, if_pos rfl, hr]
  simp

theorem getCount_incCount_self (c : List (Nat × Nat)) (k : Nat) :
    getCount (incCount c k) k = getCount c k + 1 := by
  induction c with
  | nil => simp [incCount, getCount]
  | cons p c ih =>
    obtain ⟨k', n⟩ := p
    by_cases h : k' = k
    · subst h
      simp [incCount, getCount]
    · simp [incCount, getCount, h, ih]

theorem recordOrigin_psCountOf_self (m : ASMap) (k : String) (len : Nat)
    (pfx : String) (h : containsKey m k = true) :
    psCountOf (recordOrigin m k len pfx) k len = psCountOf m k len + 1 := by
  unfold containsKey at h
  obtain ⟨r, hr⟩ := Option.isSome_iff_exists.mp h
  unfold psCountOf recordOrigin
  rw [lookupRec_updateRec, if_pos rfl, hr]
  simp [getCount_incCount_self]

theorem recordOrigin_annMemOf_self (m : ASMap) (k : String) (len : Nat)
    (pfx : String) (h : containsKey m k = true) :
    annMemOf (recordOrigin m k len pfx) k pfx = true := by
  unfold containsKey at h
  obtain ⟨r, hr⟩ := Option.isSome_iff_exists.mp h
  unfold annMemOf recordOrigin
  rw [lookupRec_updateRec, if_pos rfl, hr]
  simp

/- ===================== Lemmas: update corollaries ===================== -/

theorem containsKey_bumpEnd (m : ASMap) (k j : String) :
    containsKey (bumpEnd m k) j = containsKey m j := by
  unfold bumpEnd
  exact containsKey_updateRec m k _ j

theorem containsKey_bumpMid (m : ASMap) (k j : String) :
    containsKey (bumpMid m k) j = containsKey m j := by
  unfold bumpMid
  exact containsKey_updateRec m k _ j

theorem containsKey_addNeighbour (m : ASMap) (a b j : String) :
    containsKey (addNeighbour m a b) j = containsKey m j := by
  unfold addNeighbour
  exact containsKey_updateRec m a _ j

theorem endCOf_bumpMid (m : ASMap) (k j : String) :
    endCOf (bumpMid m k) j = endCOf m j := by
  unfold bumpMid
  apply endCOf_update_pres
  intro r
  rfl

theorem endCOf_addNeighbour (m : ASMap) (a b j : String) :
    endCOf (addNeighbour m a b) j = endCOf m j := by
  unfold addNeighbour
  apply endCOf_update_pres
  intro r
  rfl

theorem endCOf_bumpEnd_other (m : ASMap) (k j : String) (h : k ≠ j) :
    endCOf (bumpEnd m k) j = endCOf m j := by
  unfold bumpEnd
  exact endCOf_update_other m k _ j h

theorem endCOf_recordOrigin (m : ASMap) (k : String) (len : Nat) (pfx j : String) :
    endCOf (recordOrigin m k len pfx) j = endCOf m j := by
  unfold recordOrigin
  apply endCOf_update_pres
  intro r
  rfl

theorem midCOf_bumpEnd (m : ASMap) (k j : String) :
    midCOf (bumpEnd m k) j = midCOf m j := by
  unfold bumpEnd
  apply midCOf_update_pres
  intro r
  rfl

theorem midCOf_addNeighbour (m : ASMap) (a b j : String) :
    midCOf (addNeighbour m a b) j = midCOf m j := by
  unfold addNeighbour
  apply midCOf_update_pres
  intro r
  rfl

theorem midCOf_bumpMid_other (m : ASMap) (k j : String) (h : k ≠ j) :
    midCOf (bumpMid m k) j = midCOf m j := by
  unfold bumpMid
  exact midCOf_update_other m k _ j h

theorem midCOf_recordOrigin (m : ASMap) (k : String) (len : Nat) (pfx j : String) :
    midCOf (recordOrigin m k len pfx) j = midCOf m j := by
  unfold recordOrigin
  apply midCOf_update_pres
  intro r
  rfl

theorem psCountOf_bumpEnd (m : ASMap) (k j : String) (len : Nat) :
    psCountOf (bumpEnd m k) j len = psCountOf m j len := by
  unfold bumpEnd
  apply psCountOf_update_pres
  intro r
  rfl

theorem psCountOf_bumpMid (m : ASMap) (k j : String) (len : Nat) :
    psCountOf (bumpMid m k) j len = psCountOf m j len := by
  unfold bumpMid
  apply psCountOf_update_pres
  intro r
  rfl

theorem psCountOf_addNeighbour (m : ASMap) (a b j : String) (len : Nat) :
    psCountOf (addNeighbour m a b) j len = psCountOf m j len := by
  unfold addNeighbour
  apply psCountOf_update_pres
  intro r
  rfl

theorem annMemOf_bumpEnd (m : ASMap) (k j pfx : String) :
    annMemOf (bumpEnd m k) j pfx = annMemOf m j pfx := by
  unfold bumpEnd
  apply annMemOf_update_pres
  intro r
  rfl

theorem annMemOf_bumpMid (m : ASMap) (k j pfx : String) :
    annMemOf (bumpMid m k) j pfx = annMemOf m j pfx := by
  unfold bumpMid
  apply annMemOf_update_pres
  intro r
  rfl

theorem annMemOf_addNeighbour (m : ASMap) (a b j pfx : String) :
    annMemOf (addNeighbour m a b) j pfx = annMemOf m j pfx := by
  unfold addNeighbour
  apply annMemOf_update_pres
  intro r
  rfl

/- ===================== Lemmas: total mid/end credit ===================== -/

theorem totalMidEnd_insert_empty (m : ASMap) (k loc : String) :
    totalMidEnd (insertRec m k (emptyRec loc)) = totalMidEnd m := by
  unfold totalMidEnd insertRec
  rw [List.map_append, List.sum_append]
  simp [emptyRec]

theorem totalMidEnd_update_pres (m : ASMap) (k : String) (f : ASRec → ASRec)
    (hf : ∀ r, (f r).mid_path_count + (f r).end_path_count =
      r.mid_path_count + r.end_path_count) :
    totalMidEnd (updateRec m k f) = totalMidEnd m := by
  induction m with
  | nil => rfl
  | cons p m ih =>
    obtain ⟨k', r'⟩ := p
    by_cases h : k' = k <;>
      simp [totalMidEnd, updateRec, h, hf] <;>
      simpa [totalMidEnd, updateRec] using ih

theorem totalMidEnd_update_add (m : ASMap) (k : String) (f : ASRec → ASRec)
    (hf : ∀ r, (f r).mid_path_count + (f r).end_path_count =
      r.mid_path_count + r.end_path_count + 1)
    (hk : containsKey m k = true) (hnd : NodupKeys m) :
    totalMidEnd (updateRec m k f) = totalMidEnd m + 1 := by
  induction m with
  | nil => simp [containsKey, lookupRec] at hk
  | cons p m ih =>
    obtain ⟨k', r'⟩ := p
    unfold NodupKeys at hnd
    simp only [List.map_cons, List.nodup_cons] at hnd
    by_cases h : k' = k
    · subst h
      have hrest : containsKey m k' = false := by
        rw [not_containsKey_iff]
        exact hnd.1
      simp only [totalMidEnd, updateRec, List.map_cons, List.sum_cons, if_pos rfl,
        ite_true]
      have hmap : List.map (fun p => (p.1, if p.1 = k' then f p.2 else p.2)) m = m := by
        have hu := updateRec_of_not_contains m k' f hrest
        unfold updateRec at hu
        exact hu
      rw [hmap]
      have := hf r'
      omega
    · simp only [containsKey, lookupRec, if_neg h] at hk
      rw [← containsKey] at hk
      simp only [totalMidEnd, updateRec, List.map_cons, List.sum_cons, if_neg h]
      have := ih hk hnd.2
      unfold totalMidEnd at this
      unfold updateRec at this
      omega

theorem totalMidEnd_addNeighbour (m : ASMap) (a b : String) :
    totalMidEnd (addNeighbour m a b) = totalMidEnd m := by
  unfold addNeighbour
  apply totalMidEnd_update_pres
  intro r
  rfl

theorem totalMidEnd_recordOrigin (m : ASMap) (k : String) (len : Nat)
    (pfx : String) : totalMidEnd (recordOrigin m k len pfx) = totalMidEnd m := by
  unfold recordOrigin
  apply totalMidEnd_update_pres
  intro r
  rfl

theorem totalMidEnd_bumpEnd (m : ASMap) (k : String)
    (hk : containsKey m k = true) (hnd : NodupKeys m) :
    totalMidEnd (bumpEnd m k) = totalMidEnd m + 1 := by
  unfold bumpEnd
  apply totalMidEnd_update_add _ _ _ _ hk hnd
  intro r
  simp
  omega

theorem totalMidEnd_bumpMid (m : ASMap) (k : String)
    (hk : containsKey m k = true) (hnd : NodupKeys m) :
    totalMidEnd (bumpMid m k) = totalMidEnd m + 1 := by
  unfold bumpMid
  apply totalMidEnd_update_add _ _ _ _ hk hnd
  intro r
  simp
  omega

theorem NodupKeys_bumpEnd (m : ASMap) (k : String) (h : NodupKeys m) :
    NodupKeys (bumpEnd m k) := by
  unfold bumpEnd
  exact NodupKeys_updateRec m k _ h

theorem NodupKeys_bumpMid (m : ASMap) (k : String) (h : NodupKeys m) :
    NodupKeys (bumpMid m k) := by
  unfold bumpMid
  exact NodupKeys_updateRec m k _ h

theorem NodupKeys_addNeighbour (m : ASMap) (a b : String) (h : NodupKeys m) :
    NodupKeys (addNeighbour m a b) := by
  unfold addNeighbour
  exact NodupKeys_updateRec m a _ h

/- ===================== Lemmas: hop registration ===================== -/

theorem registerPath_endCOf (loc : String → String) (tokens : List String) :
    ∀ m j, endCOf ((registerPath loc m tokens).1) j = endCOf m j := by
  induction tokens with
  | nil => intro m j; rfl
  | cons t ts ih =>
    intro m j
    unfold registerPath
    by_cases h1 : containsKey m t = true
    · simp only [h1, if_true]
      exact ih m j
    · rw [Bool.not_eq_true] at h1
      simp only [h1, Bool.false_eq_true, if_false]
      by_cases h2 : startsWithBrace t = true
      · simp only [h2, if_true]
        exact ih m j
      · rw [Bool.not_eq_true] at h2
        simp only [h2, Bool.false_eq_true, if_false]
        rw [ih _ j]
        exact endCOf_insert_empty m t (loc t) j

theorem registerPath_midCOf (loc : String → String) (tokens : List String) :
    ∀ m j, midCOf ((registerPath loc m tokens).1) j = midCOf m j := by
  induction tokens with
  | nil => intro m j; rfl
  | cons t ts ih =>
    intro m j
    unfold registerPath
    by_cases h1 : containsKey m t = true
    · simp only [h1, if_true]
      exact ih m j
    · rw [Bool.not_eq_true] at h1
      simp only [h1, Bool.false_eq_true, if_false]
      by_cases h2 : startsWithBrace t = true
      · simp only [h2, if_true]
        exact ih m j
      · rw [Bool.not_eq_true] at h2
        simp only [h2, Bool.false_eq_true, if_false]
        rw [ih _ j]
        exact midCOf_insert_empty m t (loc t) j

theorem registerPath_psCountOf (loc : String → String) (tokens : List String) :
    ∀ m j len, psCountOf ((registerPath loc m tokens).1) j len = psCountOf m j len := by
  induction tokens with
  | nil => intro m j len; rfl
  | cons t ts ih =>
    intro m j len
    unfold registerPath
    by_cases h1 : containsKey m t = true
    · simp only [h1, if_true]
      exact ih m j len
    · rw [Bool.not_eq_true] at h1
      simp only [h1, Bool.false_eq_true, if_false]
      by_cases h2 : startsWithBrace t = true
      · simp only [h2, if_true]
        exact ih m j len
      · rw [Bool.not_eq_true] at h2
        simp only [h2, Bool.false_eq_true, if_false]
        rw [ih _ j len]
        exact psCountOf_insert_empty m t (loc t) j len

theorem registerPath_annMemOf (loc : String → String) (tokens : List String) :
    ∀ m j pfx, annMemOf ((registerPath loc m tokens).1) j pfx = annMemOf m j pfx := by
  induction tokens with
  | nil => intro m j pfx; rfl
  | cons t ts ih =>
    intro m j pfx
    unfold registerPath
    by_cases h1 : containsKey m t = true
    · simp only [h1, if_true]
      exact ih m j pfx
    · rw [Bool.not_eq_true] at h1
      simp only [h1, Bool.false_eq_true, if_false]
      by_cases h2 : startsWithBrace t = true
      · simp only [h2, if_true]
        exact ih m j pfx
      · rw [Bool.not_eq_true] at h2
        simp only [h2, Bool.false_eq_true, if_false]
        rw [ih _ j pfx]
        exact annMemOf_insert_empty m t (loc t) j pfx

theorem registerPath_totalMidEnd (loc : String → String) (tokens : List String) :
    ∀ m, totalMidEnd ((registerPath loc m tokens).1) = totalMidEnd m := by
  induction tokens with
  | nil => intro m; rfl
  | cons t ts ih =>
    intro m
    unfold registerPath
    by_cases h1 : containsKey m t = true
    · simp only [h1, if_true]
      exact ih m
    · rw [Bool.not_eq_true] at h1
      simp only [h1, Bool.false_eq_true, if_false]
      by_cases h2 : startsWithBrace t = true
      · simp only [h2, if_true]
        exact ih m
      · rw [Bool.not_eq_true] at h2
        simp only [h2, Bool.false_eq_true, if_false]
        rw [ih _]
        exact totalMidEnd_insert_empty m t (loc t)

theorem registerPath_NodupKeys (loc : String → String) (tokens : List String) :
    ∀ m, NodupKeys m → NodupKeys ((registerPath loc m tokens).1) := by
  induction tokens with
  | nil => intro m h; exact h
  | cons t ts ih =>
    intro m h
    unfold registerPath
    by_cases h1 : containsKey m t = true
    · simp only [h1, if_true]
      exact ih m h
    · rw [Bool.not_eq_true] at h1
      simp only [h1, Bool.false_eq_true, if_false]
      by_cases h2 : startsWithBrace t = true
      · simp only [h2, if_true]
        exact ih m h
      · rw [Bool.not_eq_true] at h2
        simp only [h2, Bool.false_eq_true, if_false]
        exact ih _ (NodupKeys_insertRec m t _ h h1)

theorem registerPath_contains_mono (loc : String → String) (tokens : List String) :
    ∀ m j, containsKey m j = true →
      containsKey ((registerPath loc m tokens).1) j = true := by
  induction tokens with
  | nil => intro m j h; exact h
  | cons t ts ih =>
    intro m j h
    unfold registerPath
    by_cases h1 : containsKey m t = true
    · simp only [h1, if_true]
      exact ih m j h
    · rw [Bool.not_eq_true] at h1
      simp only [h1, Bool.false_eq_true, if_false]
      by_cases h2 : startsWithBrace t = true
      · simp only [h2, if_true]
        exact ih m j h
      · rw [Bool.not_eq_true] at h2
        simp only [h2, Bool.false_eq_true, if_false]
        exact ih _ j (containsKey_insertRec_mono m t _ j h)

theorem registerPath_contains_token (loc : String → String) (tokens : List String) :
    ∀ m t, t ∈ tokens → startsWithBrace t = false →
      containsKey ((registerPath loc m tokens).1) t = true := by
  induction tokens with
  | nil => intro m t h; cases h
  | cons s ts ih =>
    intro m t hmem hbrace
    unfold registerPath
    by_cases h1 : containsKey m s = true
    · simp only [h1, if_true]
      rcases List.mem_cons.mp hmem with rfl | hmem
      · exact registerPath_contains_mono loc ts m t h1
      · exact ih m t hmem hbrace
    · rw [Bool.not_eq_true] at h1
      simp only [h1, Bool.false_eq_true, if_false]
      rcases List.mem_cons.mp hmem with rfl | hmem
      · simp only [hbrace, Bool.false_eq_true, if_false]
        exact registerPath_contains_mono loc ts _ t
          (containsKey_insertRec_self m t _)
      · by_cases h2 : startsWithBrace s = true
        · simp only [h2, if_true]
          exact ih m t hmem hbrace
        · rw [Bool.not_eq_true] at h2
          simp only [h2, Bool.false_eq_true, if_false]
          exact ih _ t hmem hbrace

theorem registerPath_some_contains (loc : String → String) (tokens : List String) :
    ∀ m a, some a ∈ (registerPath loc m tokens).2 →
      containsKey ((registerPath loc m tokens).1) a = true := by
  induction tokens with
  | nil => intro m a h; cases h
  | cons t ts ih =>
    intro m a hmem
    unfold registerPath at hmem ⊢
    by_cases h1 : containsKey m t = true
    · simp only [h1, if_true] at hmem ⊢
      rcases List.mem_cons.mp hmem with heq | hmem
      · obtain rfl := Option.some.inj heq
        exact registerPath_contains_mono loc ts m a h1
      · exact ih m a hmem
    · rw [Bool.not_eq_true] at h1
      simp only [h1, Bool.false_eq_true, if_false] at hmem ⊢
      by_cases h2 : startsWithBrace t = true
      · simp only [h2, if_true] at hmem ⊢
        rcases List.mem_cons.mp hmem with heq | hmem
        · cases heq
        · exact ih m a hmem
      · rw [Bool.not_eq_true] at h2
        simp only [h2, Bool.false_eq_true, if_false] at hmem ⊢
        rcases List.mem_cons.mp hmem with heq | hmem
        · obtain rfl := Option.some.inj heq
          exact registerPath_contains_mono loc ts _ a
            (containsKey_insertRec_self m a _)
        · exact ih _ a hmem

theorem registerPath_snd_no_gap (loc : String → String) (tokens : List String) :
    ∀ m, (∀ t ∈ tokens, startsWithBrace t = false) →
      (registerPath loc m tokens).2 = tokens.map some := by
  induction tokens with
  | nil => intro m _; rfl
  | cons t ts ih =>
    intro m hgap
    unfold registerPath
    by_cases h1 : containsKey m t = true
    · simp only [h1, if_true, List.map_cons]
      rw [ih m (fun u hu => hgap u (List.mem_cons_of_mem t hu))]
    · rw [Bool.not_eq_true] at h1
      simp only [h1, Bool.false_eq_true, if_false,
        hgap t (List.mem_cons_self t ts), List.map_cons]
      rw [ih _ (fun u hu => hgap u (List.mem_cons_of_mem t hu))]

/- ===================== Lemmas: hop crediting ===================== -/

theorem credit_containsKey (vp : List (Option String)) :
    ∀ (n i : Nat) (m : ASMap) (j : String),
      containsKey (creditHops n m i vp) j = containsKey m j := by
  induction vp with
  | nil => intro n i m j; rfl
  | cons hd rest ih =>
    intro n i m j
    cases hd with
    | none => exact ih n (i + 1) m j
    | some a =>
      unfold creditHops
      rcases hh : rest.head? with _ | b
      · simp only [hh]
        split <;> rw [ih] <;>
          simp only [containsKey_bumpEnd, containsKey_bumpMid]
      · cases b with
        | none =>
          simp only [hh]
          split <;> rw [ih] <;>
            simp only [containsKey_bumpEnd, containsKey_bumpMid]
        | some b =>
          simp only [hh]
          split <;> rw [ih] <;>
            simp only [containsKey_bumpEnd, containsKey_bumpMid,
              containsKey_addNeighbour]

theorem credit_endCOf_not_mem (vp : List (Option String)) :
    ∀ (n i : Nat) (m : ASMap) (t : String),
      (∀ a, some a ∈ vp → a ≠ t) →
      endCOf (creditHops n m i vp) t = endCOf m t := by
  induction vp with
  | nil => intro n i m t _; rfl
  | cons hd rest ih =>
    intro n i m t hne
    cases hd with
    | none =>
      exact ih n (i + 1) m t (fun a ha => hne a (List.mem_cons_of_mem _ ha))
    | some a =>
      have hat : a ≠ t := hne a (List.mem_cons_self _ _)
      have hrest : ∀ x, some x ∈ rest → x ≠ t :=
        fun x hx => hne x (List.mem_cons_of_mem _ hx)
      unfold creditHops
      rcases hh : rest.head? with _ | b
      · simp only [hh]
        rw [ih n (i + 1) _ t hrest]
        split <;>
          simp only [endCOf_bumpEnd_other _ a t hat, endCOf_bumpMid]
      · cases b with
        | none =>
          simp only [hh]
          rw [ih n (i + 1) _ t hrest]
          split <;>
            simp only [endCOf_bumpEnd_other _ a t hat, endCOf_bumpMid]
        | some b =>
          simp only [hh]
          rw [ih n (i + 1) _ t hrest]
          have hb : some b ∈ rest := by
            cases rest with
            | nil => cases hh
            | cons r rest' =>
              rw [List.head?_cons] at hh
              obtain rfl := Option.some.inj hh
              exact List.mem_cons_self _ _
          have hbt : b ≠ t := hrest b hb
          split <;>
            simp only [endCOf_bumpEnd_other _ a t hat, endCOf_bumpMid,
              endCOf_addNeighbour]

theorem credit_midCOf_not_mem (vp : List (Option String)) :
    ∀ (n i : Nat) (m : ASMap) (t : String),
      (∀ a, some a ∈ vp → a ≠ t) →
      midCOf (creditHops n m i vp) t = midCOf m t := by
  induction vp with
  | nil => intro n i m t _; rfl
  | cons hd rest ih =>
    intro n i m t hne
    cases hd with
    | none =>
      exact ih n (i + 1) m t (fun a ha => hne a (List.mem_cons_of_mem _ ha))
    | some a =>
      have hat : a ≠ t := hne a (List.mem_cons_self _ _)
      have hrest : ∀ x, some x ∈ rest → x ≠ t :=
        fun x hx => hne x (List.mem_cons_of_mem _ hx)
      unfold creditHops
      rcases hh : rest.head? with _ | b
      · simp only [hh]
        rw [ih n (i + 1) _ t hrest]
        split <;>
          simp only [midCOf_bumpMid_other _ a t hat, midCOf_bumpEnd]
      · cases b with
        | none =>
          simp only [hh]
          rw [ih n (i + 1) _ t hrest]
          split <;>
            simp only [midCOf_bumpMid_other _ a t hat, midCOf_bumpEnd]
        | some b =>
          simp only [hh]
          rw [ih n (i + 1) _ t hrest]
          have hb : some b ∈ rest := by
            cases rest with
            | nil => cases hh
            | cons r rest' =>
              rw [List.head?_cons] at hh
              obtain rfl := Option.some.inj hh
              exact List.mem_cons_self _ _
          have hbt : b ≠ t := hrest b hb
          split <;>
            simp only [midCOf_bumpMid_other _ a t hat, midCOf_bumpEnd,
              midCOf_addNeighbour]

theorem credit_psCountOf (vp : List (Option String)) :
    ∀ (n i : Nat) (m : ASMap) (j : String) (len : Nat),
      psCountOf (creditHops n m i vp) j len = psCountOf m j len := by
  induction vp with
  | nil => intro n i m j len; rfl
  | cons hd rest ih =>
    intro n i m j len
    cases hd with
    | none => exact ih n (i + 1) m j len
    | some a =>
      unfold creditHops
      rcases hh : rest.head? with _ | b
      · simp only [hh]
        rw [ih]
        split <;> simp only [psCountOf_bumpEnd, psCountOf_bumpMid]
      · cases b with
        | none =>
          simp only [hh]
          rw [ih]
          split <;> simp only [psCountOf_bumpEnd, psCountOf_bumpMid]
        | some b =>
          simp only [hh]
          rw [ih]
          split <;>
            simp only [psCountOf_bumpEnd, psCountOf_bumpMid,
              psCountOf_addNeighbour]

theorem credit_annMemOf (vp : List (Option String)) :
    ∀ (n i : Nat) (m : ASMap) (j pfx : String),
      annMemOf (creditHops n m i vp) j pfx = annMemOf m j pfx := by
  induction vp with
  | nil => intro n i m j pfx; rfl
  | cons hd rest ih =>
    intro n i m j pfx
    cases hd with
    | none => exact ih n (i + 1) m j pfx
    | some a =>
      unfold creditHops
      rcases hh : rest.head? with _ | b
      · simp only [hh]
        rw [ih]
        split <;> simp only [annMemOf_bumpEnd, annMemOf_bumpMid]
      · cases b with
        | none =>
          simp only [hh]
          rw [ih]
          split <;> simp only [annMemOf_bumpEnd, annMemOf_bumpMid]
        | some b =>
          simp only [hh]
          rw [ih]
          split <;>
            simp only [annMemOf_bumpEnd, annMemOf_bumpMid,
              annMemOf_addNeighbour]

theorem credit_endCOf_indexed (l : List String) (t : String) :
    ∀ (hnd : l.Nodup) (n i : Nat) (m : ASMap), t ∈ l → containsKey m t = true →
      endCOf (creditHops n m i (l.map some)) t =
        endCOf m t + (if i + l.indexOf t = 0 ∨ i + l.indexOf t = n - 1
          then 1 else 0) := by
  induction l with
  | nil => intro _ n i m hmem; cases hmem
  | cons s ls ih =>
    intro hnd n i m hmem hkey
    rw [List.nodup_cons] at hnd
    rw [List.map_cons]
    unfold creditHops
    by_cases hts : t = s
    · subst hts
      rw [List.indexOf_cons_self]
      have hnotin : ∀ a, some a ∈ ls.map some → a ≠ t := by
        intro a ha hat
        subst hat
        exact hnd.1 (by simpa using ha)
      rcases hh : (ls.map some).head? with _ | b
      · simp only [hh]
        split
        · next hcond =>
          rw [credit_endCOf_not_mem _ _ _ _ _ hnotin, bumpEnd_endCOf_self m t hkey]
          simp only [Nat.add_zero] at hcond ⊢
          rw [if_pos hcond]
        · next hcond =>
          rw [credit_endCOf_not_mem _ _ _ _ _ hnotin, endCOf_bumpMid]
          simp only [Nat.add_zero] at hcond ⊢
          rw [if_neg hcond]
          omega
      · cases b with
        | none =>
          simp only [hh]
          split
          · next hcond =>
            rw [credit_endCOf_not_mem _ _ _ _ _ hnotin, bumpEnd_endCOf_self m t hkey]
            simp only [Nat.add_zero] at hcond ⊢
            rw [if_pos hcond]
          · next hcond =>
            rw [credit_endCOf_not_mem _ _ _ _ _ hnotin, endCOf_bumpMid]
            simp only [Nat.add_zero] at hcond ⊢
            rw [if_neg hcond]
            omega
        | some b =>
          simp only [hh]
          have hkey1 : containsKey (addNeighbour (addNeighbour m t b) b t) t = true := by
            rw [containsKey_addNeighbour, containsKey_addNeighbour]
            exact hkey
          split
          · next hcond =>
            rw [credit_endCOf_not_mem _ _ _ _ _ hnotin,
              bumpEnd_endCOf_self _ t hkey1, endCOf_addNeighbour,
              endCOf_addNeighbour]
            simp only [Nat.add_zero] at hcond ⊢
            rw [if_pos hcond]
          · next hcond =>
            rw [credit_endCOf_not_mem _ _ _ _ _ hnotin, endCOf_bumpMid,
              endCOf_addNeighbour, endCOf_addNeighbour]
            simp only [Nat.add_zero] at hcond ⊢
            rw [if_neg hcond]
            omega
    · have hmem' : t ∈ ls := by
        rcases List.mem_cons.mp hmem with rfl | h
        · exact absurd rfl hts
        · exact h
      have hst : s ≠ t := fun h => hts h.symm
      rw [List.indexOf_cons_ne ls hst]
      have harith : i + Nat.succ (ls.indexOf t) = (i + 1) + ls.indexOf t := by
        omega
      rw [harith]
      rcases hh : (ls.map some).head? with _ | b
      · simp only [hh]
        split <;>
          [rw [ih hnd.2 n (i + 1) (bumpEnd m s) hmem'
            (by rw [containsKey_bumpEnd]; exact hkey),
            endCOf_bumpEnd_other m s t hst];
           rw [ih hnd.2 n (i + 1) (bumpMid m s) hmem'
            (by rw [containsKey_bumpMid]; exact hkey),
            endCOf_bumpMid]]
      · cases b with
        | none =>
          simp only [hh]
          split <;>
            [rw [ih hnd.2 n (i + 1) (bumpEnd m s) hmem'
              (by rw [containsKey_bumpEnd]; exact hkey),
              endCOf_bumpEnd_other m s t hst];
             rw [ih hnd.2 n (i + 1) (bumpMid m s) hmem'
              (by rw [containsKey_bumpMid]; exact hkey),
              endCOf_bumpMid]]
        | some b =>
          simp only [hh]
          split <;>
            [rw [ih hnd.2 n (i + 1) _ hmem'
              (by rw [containsKey_bumpEnd, containsKey_addNeighbour,
                containsKey_addNeighbour]; exact hkey),
              endCOf_bumpEnd_other _ s t hst, endCOf_addNeighbour,
              endCOf_addNeighbour];
             rw [ih hnd.2 n (i + 1) _ hmem'
              (by rw [containsKey_bumpMid, containsKey_addNeighbour,
                containsKey_addNeighbour]; exact hkey),
              endCOf_bumpMid, endCOf_addNeighbour, endCOf_addNeighbour]]

theorem credit_midCOf_indexed (l : List String) (t : String) :
    ∀ (hnd : l.Nodup) (n i : Nat) (m : ASMap), t ∈ l → containsKey m t = true →
      midCOf (creditHops n m i (l.map some)) t =
        midCOf m t + (if i + l.indexOf t = 0 ∨ i + l.indexOf t = n - 1
          then 0 else 1) := by
  induction l with
  | nil => intro _ n i m hmem; cases hmem
  | cons s ls ih =>
    intro hnd n i m hmem hkey
    rw [List.nodup_cons] at hnd
    rw [List.map_cons]
    unfold creditHops
    by_cases hts : t = s
    · subst hts
      rw [List.indexOf_cons_self]
      have hnotin : ∀ a, some a ∈ ls.map some → a ≠ t := by
        intro a ha hat
        subst hat
        exact hnd.1 (by simpa using ha)
      rcases hh : (ls.map some).head? with _ | b
      · simp only [hh]
        split
        · next hcond =>
          rw [credit_midCOf_not_mem _ _ _ _ _ hnotin, midCOf_bumpEnd]
          simp only [Nat.add_zero] at hcond ⊢
          rw [if_pos hcond]
          omega
        · next hcond =>
          rw [credit_midCOf_not_mem _ _ _ _ _ hnotin, bumpMid_midCOf_self m t hkey]
          simp only [Nat.add_zero] at hcond ⊢
          rw [if_neg hcond]
      · cases b with
        | none =>
          simp only [hh]
          split
          · next hcond =>
            rw [credit_midCOf_not_mem _ _ _ _ _ hnotin, midCOf_bumpEnd]
            simp only [Nat.add_zero] at hcond ⊢
            rw [if_pos hcond]
            omega
          · next hcond =>
            rw [credit_midCOf_not_mem _ _ _ _ _ hnotin, bumpMid_midCOf_self m t hkey]
            simp only [Nat.add_zero] at hcond ⊢
            rw [if_neg hcond]
        | some b =>
          simp only [hh]
          have hkey1 : containsKey (addNeighbour (addNeighbour m t b) b t) t = true := by
            rw [containsKey_addNeighbour, containsKey_addNeighbour]
            exact hkey
          split
          · next hcond =>
            rw [credit_midCOf_not_mem _ _ _ _ _ hnotin, midCOf_bumpEnd,
              midCOf_addNeighbour, midCOf_addNeighbour]
            simp only [Nat.add_zero] at hcond ⊢
            rw [if_pos hcond]
            omega
          · next hcond =>
            rw [credit_midCOf_not_mem _ _ _ _ _ hnotin,
              bumpMid_midCOf_self _ t hkey1, midCOf_addNeighbour,
              midCOf_addNeighbour]
            simp only [Nat.add_zero] at hcond ⊢
            rw [if_neg hcond]
    · have hmem' : t ∈ ls := by
        rcases List.mem_cons.mp hmem with rfl | h
        · exact absurd rfl hts
        · exact h
      have hst : s ≠ t := fun h => hts h.symm
      rw [List.indexOf_cons_ne ls hst]
      have harith : i + Nat.succ (ls.indexOf t) = (i + 1) + ls.indexOf t := by
        omega
      rw [harith]
      rcases hh : (ls.map some).head? with _ | b
      · simp only [hh]
        split <;>
          [rw [ih hnd.2 n (i + 1) (bumpEnd m s) hmem'
            (by rw [containsKey_bumpEnd]; exact hkey), midCOf_bumpEnd];
           rw [ih hnd.2 n (i + 1) (bumpMid m s) hmem'
            (by rw [containsKey_bumpMid]; exact hkey),
            midCOf_bumpMid_other m s t hst]]
      · cases b with
        | none =>
          simp only [hh]
          split <;>
            [rw [ih hnd.2 n (i + 1) (bumpEnd m s) hmem'
              (by rw [containsKey_bumpEnd]; exact hkey), midCOf_bumpEnd];
             rw [ih hnd.2 n (i + 1) (bumpMid m s) hmem'
              (by rw [containsKey_bumpMid]; exact hkey),
              midCOf_bumpMid_other m s t hst]]
        | some b =>
          simp only [hh]
          split <;>
            [rw [ih hnd.2 n (i + 1) _ hmem'
              (by rw [containsKey_bumpEnd, containsKey_addNeighbour,
                containsKey_addNeighbour]; exact hkey),
              midCOf_bumpEnd, midCOf_addNeighbour, midCOf_addNeighbour];
             rw [ih hnd.2 n (i + 1) _ hmem'
              (by rw [containsKey_bumpMid, containsKey_addNeighbour,
                containsKey_addNeighbour]; exact hkey),
              midCOf_bumpMid_other _ s t hst, midCOf_addNeighbour,
              midCOf_addNeighbour]]

theorem credit_totalMidEnd (l : List String) :
    ∀ (n i : Nat) (m : ASMap), NodupKeys m →
      (∀ a ∈ l, containsKey m a = true) →
      totalMidEnd (creditHops n m i (l.map some)) = totalMidEnd m + l.length := by
  induction l with
  | nil => intro n i m _ _; rfl
  | cons s ls ih =>
    intro n i m hnd hkeys
    rw [List.map_cons]
    unfold creditHops
    have hks : containsKey m s = true := hkeys s (List.mem_cons_self s ls)
    have hkls : ∀ a ∈ ls, containsKey m a = true :=
      fun a ha => hkeys a (List.mem_cons_of_mem s ha)
    rcases hh : (ls.map some).head? with _ | b
    · simp only [hh]
      split
      · rw [ih n (i + 1) (bumpEnd m s) (NodupKeys_bumpEnd m s hnd)
          (fun a ha => by rw [containsKey_bumpEnd]; exact hkls a ha),
          totalMidEnd_bumpEnd m s hks hnd]
        simp [List.length_cons]
        omega
      · rw [ih n (i + 1) (bumpMid m s) (NodupKeys_bumpMid m s hnd)
          (fun a ha => by rw [containsKey_bumpMid]; exact hkls a ha),
          totalMidEnd_bumpMid m s hks hnd]
        simp [List.length_cons]
        omega
    · cases b with
      | none =>
        simp only [hh]
        split
        · rw [ih n (i + 1) (bumpEnd m s) (NodupKeys_bumpEnd m s hnd)
            (fun a ha => by rw [containsKey_bumpEnd]; exact hkls a ha),
            totalMidEnd_bumpEnd m s hks hnd]
          simp [List.length_cons]
          omega
        · rw [ih n (i + 1) (bumpMid m s) (NodupKeys_bumpMid m s hnd)
            (fun a ha => by rw [containsKey_bumpMid]; exact hkls a ha),
            totalMidEnd_bumpMid m s hks hnd]
          simp [List.length_cons]
          omega
      | some b =>
        simp only [hh]
        have hnd1 : NodupKeys (addNeighbour (addNeighbour m s b) b s) :=
          NodupKeys_addNeighbour _ b s (NodupKeys_addNeighbour m s b hnd)
        have hks1 : containsKey (addNeighbour (addNeighbour m s b) b s) s = true := by
          rw [containsKey_addNeighbour, containsKey_addNeighbour]
          exact hks
        have hkls1 : ∀ a ∈ ls,
            containsKey (addNeighbour (addNeighbour m s b) b s) a = true := by
          intro a ha
          rw [containsKey_addNeighbour, containsKey_addNeighbour]
          exact hkls a ha
        have htot1 : totalMidEnd (addNeighbour (addNeighbour m s b) b s) =
            totalMidEnd m := by
          rw [totalMidEnd_addNeighbour, totalMidEnd_addNeighbour]
        split
        · rw [ih n (i + 1) _ (NodupKeys_bumpEnd _ s hnd1)
            (fun a ha => by rw [containsKey_bumpEnd]; exact hkls1 a ha),
            totalMidEnd_bumpEnd _ s hks1 hnd1, htot1]
          simp [List.length_cons]
          omega
        · rw [ih n (i + 1) _ (NodupKeys_bumpMid _ s hnd1)
            (fun a ha => by rw [containsKey_bumpMid]; exact hkls1 a ha),
            totalMidEnd_bumpMid _ s hks1 hnd1, htot1]
          simp [List.length_cons]
          omega

/- ===================== C1: path counting invariant ===================== -/

/-- C1: for every announced prefix parsed from a gap-free merged AS path of
L+1 hops, the per-path update adds exactly L+1 to the total of mid_path_count
plus end_path_count over the map, the origin (last) hop's path_sizes count at
length L increases by exactly one and the prefix joins the origin's
announced_prefixes, and — reading the per-hop deltas over distinct hop ASes —
the first and last hop each gain one end_path_count while every interior hop
gains one mid_path_count (a single-hop path gains exactly one
end_path_count). -/
theorem c1_path_counting (loc : String → String) (m : ASMap) (pfx : String)
    (tokens : List String) (M : ASMap)
    (hnd : NodupKeys m)
    (hgap : ∀ t ∈ tokens, startsWithBrace t = false)
    (hne : tokens ≠ [])
    (hM : parse_data loc m pfx tokens = some M) :
    C1Post m M pfx tokens := by
  have hvp : (registerPath loc m tokens).2 = tokens.map some :=
    registerPath_snd_no_gap loc tokens m hgap
  have hlast : tokens.getLast? = some (tokens.getLast hne) :=
    List.getLast?_eq_getLast tokens hne
  have hgl : (tokens.map some).getLast? = some (some (tokens.getLast hne)) := by
    rw [List.getLast?_map, hlast]
    rfl
  simp only [parse_data, hvp] at hM
  rw [hgl] at hM
  simp only [List.length_map] at hM
  rw [Option.some.injEq] at hM
  subst hM
  have hm1nd : NodupKeys ((registerPath loc m tokens).1) :=
    registerPath_NodupKeys loc tokens m hnd
  have hm1keys : ∀ t ∈ tokens,
      containsKey ((registerPath loc m tokens).1) t = true :=
    fun t ht => registerPath_contains_token loc tokens m t ht (hgap t ht)
  have hlastmem : tokens.getLast hne ∈ tokens := List.getLast_mem hne
  have hm2key : containsKey
      (creditHops tokens.length ((registerPath loc m tokens).1) 0
        (tokens.map some)) (tokens.getLast hne) = true := by
    rw [credit_containsKey]
    exact hm1keys _ hlastmem
  refine ⟨?_, ?_, ?_⟩
  · rw [totalMidEnd_recordOrigin,
      credit_totalMidEnd tokens tokens.length 0 _ hm1nd hm1keys,
      registerPath_totalMidEnd]
  · intro origin horigin
    rw [hlast, Option.some.injEq] at horigin
    subst horigin
    constructor
    · rw [recordOrigin_psCountOf_self _ _ _ _ hm2key, credit_psCountOf,
        registerPath_psCountOf]
    · exact recordOrigin_annMemOf_self _ _ _ _ hm2key
  · intro htnd j hj
    have htmem : tokens.get ⟨j, hj⟩ ∈ tokens := List.get_mem tokens j hj
    have hidx : tokens.indexOf (tokens.get ⟨j, hj⟩) = j :=
      List.get_indexOf htnd ⟨j, hj⟩
    constructor
    · rw [endCOf_recordOrigin,
        credit_endCOf_indexed tokens _ htnd tokens.length 0 _ htmem
          (hm1keys _ htmem),
        registerPath_endCOf, hidx]
      simp only [Nat.zero_add]
    · rw [midCOf_recordOrigin,
        credit_midCOf_indexed tokens _ htnd tokens.length 0 _ htmem
          (hm1keys _ htmem),
        registerPath_midCOf, hidx]
      simp only [Nat.zero_add]

/-- C1 (witness): the theorem applied to the distinct three-hop path
["10", "20", "30"] announcing 10.0.0.0/8 into an empty map. -/
theorem c1_witness : C1Post ∅ c1m "10.0.0.0/8" ["10", "20", "30"] :=
  c1_path_counting locZZ ∅ "10.0.0.0/8" ["10", "20", "30"] c1m
    (by simp [NodupKeys]) (by decide) (by decide) rfl

/- ===================== Lemmas: neighbour invariants ===================== -/

theorem lookup_update_neighbours (m : ASMap) (k : String) (f : ASRec → ASRec)
    (hf : ∀ r, (f r).neighbours = r.neighbours) (z : String) (rz : ASRec)
    (hz : lookupRec (updateRec m k f) z = some rz) :
    ∃ r0, lookupRec m z = some r0 ∧ rz.neighbours = r0.neighbours := by
  rw [lookupRec_updateRec] at hz
  by_cases hkz : k = z
  · rw [if_pos hkz] at hz
    cases h0 : lookupRec m z with
    | none => rw [h0] at hz; cases hz
    | some r0 =>
      rw [h0, Option.map_some'] at hz
      obtain rfl := (Option.some.inj hz).symm
      exact ⟨r0, rfl, hf r0⟩
  · rw [if_neg hkz] at hz
    exact ⟨rz, hz, rfl⟩

theorem closed_update_pres (m : ASMap) (k : String) (f : ASRec → ASRec)
    (hf : ∀ r, (f r).neighbours = r.neighbours)
    (h : closedNeighbours m) : closedNeighbours (updateRec m k f) := by
  intro x rx hx y hy
  obtain ⟨r0, h0, hnb⟩ := lookup_update_neighbours m k f hf x rx hx
  rw [hnb] at hy
  rw [containsKey_updateRec]
  exact h x r0 h0 y hy

theorem sym_update_pres (m : ASMap) (k : String) (f : ASRec → ASRec)
    (hf : ∀ r, (f r).neighbours = r.neighbours)
    (h : symNeighbours m) : symNeighbours (updateRec m k f) := by
  intro x y rx ry hx hy
  obtain ⟨rx0, hx0, hxnb⟩ := lookup_update_neighbours m k f hf x rx hx
  obtain ⟨ry0, hy0, hynb⟩ := lookup_update_neighbours m k f hf y ry hy
  rw [hxnb, hynb]
  exact h x y rx0 ry0 hx0 hy0

theorem closed_insert_empty (m : ASMap) (k loc : String)
    (h : closedNeighbours m) :
    closedNeighbours (insertRec m k (emptyRec loc)) := by
  intro x rx hx y hy
  rw [lookupRec_insertRec] at hx
  cases h0 : lookupRec m x with
  | none =>
    rw [h0] at hx
    by_cases hkx : k = x
    · rw [if_pos hkx] at hx
      obtain rfl := (Option.some.inj hx).symm
      simp [emptyRec] at hy
    · rw [if_neg hkx] at hx
      cases hx
  | some r0 =>
    rw [h0] at hx
    obtain rfl := (Option.some.inj hx).symm
    exact containsKey_insertRec_mono m k _ y (h x rx h0 y hy)

theorem sym_insert_empty (m : ASMap) (k loc : String)
    (hk : containsKey m k = false)
    (hcl : closedNeighbours m) (hsym : symNeighbours m) :
    symNeighbours (insertRec m k (emptyRec loc)) := by
  have hchar : ∀ z rz, lookupRec (insertRec m k (emptyRec loc)) z = some rz →
      lookupRec m z = some rz ∨
        (lookupRec m z = none ∧ k = z ∧ rz = emptyRec loc) := by
    intro z rz hz
    rw [lookupRec_insertRec] at hz
    cases h0 : lookupRec m z with
    | none =>
      rw [h0] at hz
      by_cases hkz : k = z
      · rw [if_pos hkz] at hz
        exact Or.inr ⟨rfl, hkz, (Option.some.inj hz).symm⟩
      · rw [if_neg hkz] at hz
        cases hz
    | some r0 =>
      rw [h0] at hz
      obtain rfl := Option.some.inj hz
      exact Or.inl rfl
  have hnotnb : ∀ z rz, lookupRec m z = some rz → k ∉ rz.neighbours := by
    intro z rz hz hmem
    have := hcl z rz hz k hmem
    rw [this] at hk
    cases hk
  intro x y rx ry hx hy
  rcases hchar x rx hx with hx0 | ⟨hx0, rfl, rfl⟩
  · rcases hchar y ry hy with hy0 | ⟨hy0, rfl, rfl⟩
    · exact hsym x y rx ry hx0 hy0
    · constructor
      · intro hmem
        exact absurd hmem (hnotnb x rx hx0)
      · intro hmem
        simp [emptyRec] at hmem
  · rcases hchar y ry hy with hy0 | ⟨hy0, hky, rfl⟩
    · constructor
      · intro hmem
        simp [emptyRec] at hmem
      · intro hmem
        exact absurd hmem (hnotnb y ry hy0)
    · simp [emptyRec]

theorem addPair_lookup (m : ASMap) (a b x : String) (rx' : ASRec)
    (hx' : lookupRec (addNeighbour (addNeighbour m a b) b a) x = some rx') :
    ∃ rx, lookupRec m x = some rx ∧
      ∀ y, y ∈ rx'.neighbours ↔
        y ∈ rx.neighbours ∨ (x = a ∧ y = b) ∨ (x = b ∧ y = a) := by
  unfold addNeighbour at hx'
  rw [lookupRec_updateRec, lookupRec_updateRec] at hx'
  by_cases hbx : b = x
  · rw [if_pos hbx] at hx'
    by_cases hax : a = x
    · rw [if_pos hax] at hx'
      cases h0 : lookupRec m x with
      | none => rw [h0] at hx'; cases hx'
      | some r0 =>
        rw [h0, Option.map_some', Option.map_some'] at hx'
        obtain rfl := (Option.some.inj hx').symm
        refine ⟨r0, rfl, fun y => ?_⟩
        have hxa : x = a := hax.symm
        have hxb : x = b := hbx.symm
        simp only [Finset.mem_insert]
        tauto
    · rw [if_neg hax] at hx'
      cases h0 : lookupRec m x with
      | none => rw [h0] at hx'; cases hx'
      | some r0 =>
        rw [h0, Option.map_some'] at hx'
        obtain rfl := (Option.some.inj hx').symm
        refine ⟨r0, rfl, fun y => ?_⟩
        have hxb : x = b := hbx.symm
        have hxa : ¬x = a := fun hc => hax hc.symm
        simp only [Finset.mem_insert]
        tauto
  · rw [if_neg hbx] at hx'
    by_cases hax : a = x
    · rw [if_pos hax] at hx'
      cases h0 : lookupRec m x with
      | none => rw [h0] at hx'; cases hx'
      | some r0 =>
        rw [h0, Option.map_some'] at hx'
        obtain rfl := (Option.some.inj hx').symm
        refine ⟨r0, rfl, fun y => ?_⟩
        have hxa : x = a := hax.symm
        have hxb : ¬x = b := fun hc => hbx hc.symm
        simp only [Finset.mem_insert]
        tauto
    · rw [if_neg hax] at hx'
      refine ⟨rx', hx', fun y => ?_⟩
      have hxa : ¬x = a := fun hc => hax hc.symm
      have hxb : ¬x = b := fun hc => hbx hc.symm
      tauto

theorem closed_addPair (m : ASMap) (a b : String)
    (ha : containsKey m a = true) (hb : containsKey m b = true)
    (h : closedNeighbours m) :
    closedNeighbours (addNeighbour (addNeighbour m a b) b a) := by
  intro x rx' hx' y hy
  obtain ⟨rx, h0, hmem⟩ := addPair_lookup m a b x rx' hx'
  rw [hmem y] at hy
  unfold addNeighbour
  rw [containsKey_updateRec, containsKey_updateRec]
  rcases hy with hy | ⟨_, rfl⟩ | ⟨_, rfl⟩
  · exact h x rx h0 y hy
  · exact hb
  · exact ha

theorem sym_addPair (m : ASMap) (a b : String) (hsym : symNeighbours m) :
    symNeighbours (addNeighbour (addNeighbour m a b) b a) := by
  intro x y rx' ry' hx' hy'
  obtain ⟨rx, hx0, hmx⟩ := addPair_lookup m a b x rx' hx'
  obtain ⟨ry, hy0, hmy⟩ := addPair_lookup m a b y ry' hy'
  rw [hmx y, hmy x]
  have hs := hsym x y rx ry hx0 hy0
  tauto

theorem credit_inv (vp : List (Option String)) :
    ∀ (n i : Nat) (m : ASMap),
      (∀ a, some a ∈ vp → containsKey m a = true) →
      closedNeighbours m → symNeighbours m →
      closedNeighbours (creditHops n m i vp) ∧
        symNeighbours (creditHops n m i vp) := by
  induction vp with
  | nil => intro n i m _ hcl hsym; exact ⟨hcl, hsym⟩
  | cons hd rest ih =>
    intro n i m hkeys hcl hsym
    cases hd with
    | none =>
      exact ih n (i + 1) m
        (fun a ha => hkeys a (List.mem_cons_of_mem _ ha)) hcl hsym
    | some a =>
      have hka : containsKey m a = true := hkeys a (List.mem_cons_self _ _)
      have hkrest : ∀ x, some x ∈ rest → containsKey m x = true :=
        fun x hx => hkeys x (List.mem_cons_of_mem _ hx)
      unfold creditHops
      rcases hh : rest.head? with _ | b
      · simp only [hh]
        split <;>
          [exact ih n (i + 1) _
            (fun x hx => by rw [containsKey_bumpEnd]; exact hkrest x hx)
            (by unfold bumpEnd; exact closed_update_pres _ _ _ (fun _ => rfl) hcl)
            (by unfold bumpEnd; exact sym_update_pres _ _ _ (fun _ => rfl) hsym);
           exact ih n (i + 1) _
            (fun x hx => by rw [containsKey_bumpMid]; exact hkrest x hx)
            (by unfold bumpMid; exact closed_update_pres _ _ _ (fun _ => rfl) hcl)
            (by unfold bumpMid; exact sym_update_pres _ _ _ (fun _ => rfl) hsym)]
      · cases b with
        | none =>
          simp only [hh]
          split <;>
            [exact ih n (i + 1) _
              (fun x hx => by rw [containsKey_bumpEnd]; exact hkrest x hx)
              (by unfold bumpEnd; exact closed_update_pres _ _ _ (fun _ => rfl) hcl)
              (by unfold bumpEnd; exact sym_update_pres _ _ _ (fun _ => rfl) hsym);
             exact ih n (i + 1) _
              (fun x hx => by rw [containsKey_bumpMid]; exact hkrest x hx)
              (by unfold bumpMid; exact closed_update_pres _ _ _ (fun _ => rfl) hcl)
              (by unfold bumpMid; exact sym_update_pres _ _ _ (fun _ => rfl) hsym)]
        | some b =>
          simp only [hh]
          have hb : some b ∈ rest := by
            cases rest with
            | nil => cases hh
            | cons r rest' =>
              rw [List.head?_cons] at hh
              obtain rfl := Option.some.inj hh
              exact List.mem_cons_self _ _
          have hkb : containsKey m b = true := hkrest b hb
          have hcl1 : closedNeighbours (addNeighbour (addNeighbour m a b) b a) :=
            closed_addPair m a b hka hkb hcl
          have hsym1 : symNeighbours (addNeighbour (addNeighbour m a b) b a) :=
            sym_addPair m a b hsym
          have hkrest1 : ∀ x, some x ∈ rest →
              containsKey (addNeighbour (addNeighbour m a b) b a) x = true := by
            intro x hx
            rw [containsKey_addNeighbour, containsKey_addNeighbour]
            exact hkrest x hx
          split <;>
            [exact ih n (i + 1) _
              (fun x hx => by rw [containsKey_bumpEnd]; exact hkrest1 x hx)
              (by unfold bumpEnd; exact closed_update_pres _ _ _ (fun _ => rfl) hcl1)
              (by unfold bumpEnd; exact sym_update_pres _ _ _ (fun _ => rfl) hsym1);
             exact ih n (i + 1) _
              (fun x hx => by rw [containsKey_bumpMid]; exact hkrest1 x hx)
              (by unfold bumpMid; exact closed_update_pres _ _ _ (fun _ => rfl) hcl1)
              (by unfold bumpMid; exact sym_update_pres _ _ _ (fun _ => rfl) hsym1)]

theorem register_inv (loc : String → String) (tokens : List String) :
    ∀ m, closedNeighbours m → symNeighbours m →
      closedNeighbours ((registerPath loc m tokens).1) ∧
        symNeighbours ((registerPath loc m tokens).1) := by
  induction tokens with
  | nil => intro m hcl hsym; exact ⟨hcl, hsym⟩
  | cons t ts ih =>
    intro m hcl hsym
    unfold registerPath
    by_cases h1 : containsKey m t = true
    · simp only [h1, if_true]
      exact ih m hcl hsym
    · rw [Bool.not_eq_true] at h1
      simp only [h1, Bool.false_eq_true, if_false]
      by_cases h2 : startsWithBrace t = true
      · simp only [h2, if_true]
        exact ih m hcl hsym
      · rw [Bool.not_eq_true] at h2
        simp only [h2, Bool.false_eq_true, if_false]
        exact ih _ (closed_insert_empty m t (loc t) hcl)
          (sym_insert_empty m t (loc t) h1 hcl hsym)

theorem parse_data_inv (loc : String → String) (m : ASMap) (pfx : String)
    (tokens : List String) (M : ASMap)
    (hcl : closedNeighbours m) (hsym : symNeighbours m)
    (hM : parse_data loc m pfx tokens = some M) :
    closedNeighbours M ∧ symNeighbours M := by
  have hreg := register_inv loc tokens m hcl hsym
  have hkeys : ∀ a, some a ∈ (registerPath loc m tokens).2 →
      containsKey ((registerPath loc m tokens).1) a = true :=
    fun a ha => registerPath_some_contains loc tokens m a ha
  have hcredit := credit_inv ((registerPath loc m tokens).2)
    ((registerPath loc m tokens).2).length 0 ((registerPath loc m tokens).1)
    hkeys hreg.1 hreg.2
  simp only [parse_data] at hM
  rcases hgl : ((registerPath loc m tokens).2).getLast? with _ | o
  · rw [hgl] at hM
    cases hM
  · cases o with
    | none =>
      rw [hgl] at hM
      obtain rfl := Option.some.inj hM
      exact hcredit
    | some origin =>
      rw [hgl] at hM
      obtain rfl := Option.some.inj hM
      constructor
      · unfold recordOrigin
        exact closed_update_pres _ _ _ (fun _ => rfl) hcredit.1
      · unfold recordOrigin
        exact sym_update_pres _ _ _ (fun _ => rfl) hcredit.2

theorem processRecords_inv (loc : String → String) :
    ∀ (recs : List (String × List String)) (m M : ASMap),
      closedNeighbours m → symNeighbours m →
      processRecords loc m recs = some M →
      closedNeighbours M ∧ symNeighbours M := by
  intro recs
  induction recs with
  | nil =>
    intro m M hcl hsym hM
    obtain rfl := Option.some.inj hM
    exact ⟨hcl, hsym⟩
  | cons r recs ih =>
    intro m M hcl hsym hM
    unfold processRecords at hM
    cases hp : parse_data loc m r.1 r.2 with
    | none => rw [hp] at hM; cases hM
    | some m' =>
      rw [hp] at hM
      have := parse_data_inv loc m r.1 r.2 m' hcl hsym hp
      exact ih m' M this.1 this.2 hM

theorem closed_empty : closedNeighbours (∅ : ASMap) := by
  intro x rx hx
  cases hx

theorem sym_empty : symNeighbours (∅ : ASMap) := by
  intro x y rx ry hx
  cases hx

/- ===================== C8: neighbour symmetry ===================== -/

/-- C8: neighbour adjacency is symmetric — the per-path update preserves the
closure-and-symmetry invariant of the neighbour relation, and after processing
any sequence of parsed-route records from the empty map, any two AS profiles
of the resulting map name each other symmetrically. -/
theorem c8_neighbour_symmetry :
    (∀ (loc : String → String) m pfx tokens M,
      closedNeighbours m → symNeighbours m →
      parse_data loc m pfx tokens = some M →
      closedNeighbours M ∧ symNeighbours M) ∧
    (∀ (loc : String → String) recs M,
      processRecords loc ∅ recs = some M → symNeighbours M) := by
  constructor
  · intro loc m pfx tokens M hcl hsym hM
    exact parse_data_inv loc m pfx tokens M hcl hsym hM
  · intro loc recs M hM
    exact (processRecords_inv loc recs ∅ M closed_empty sym_empty hM).2

/-- C8 (witness): symmetry of the map obtained by parsing two overlapping
three-hop paths from the empty map. -/
theorem c8_witness : symNeighbours c8m :=
  c8_neighbour_symmetry.2 locZZ c8recs c8m rfl

/- ===================== C2: prediction warning weights ===================== -/

theorem alookup_map_keys {β : Type} (ks : List String) (G : String → β)
    (p : String) (hp : p ∈ ks) :
    alookup p (ks.map (fun q => (q, G q))) = some (G p) := by
  induction ks with
  | nil => cases hp
  | cons k ks ih =>
    rcases List.mem_cons.mp hp with rfl | hp
    · simp [alookup]
    · by_cases hk : k = p
      · subst hk; simp [alookup]
      · simp only [List.map_cons, alookup, if_neg hk]
        exact ih hp

theorem alookup_map_fst {β γ : Type} (l : List (String × β)) (F : String × β → γ)
    (hnd : (l.map Prod.fst).Nodup) (k : String) (b : β) (hmem : (k, b) ∈ l) :
    alookup k (l.map (fun p => (p.1, F p))) = some (F (k, b)) := by
  induction l with
  | nil => cases hmem
  | cons hd tl ih =>
    simp only [List.map_cons, List.nodup_cons] at hnd
    rcases List.mem_cons.mp hmem with rfl | hmem
    · simp [alookup]
    · by_cases hk : hd.1 = k
      · exact absurd (hk ▸ List.mem_map.mpr ⟨(k, b), hmem, rfl⟩) hnd.1
      · simp only [List.map_cons, alookup, if_neg hk]
        exact ih hnd.2 hmem

/-- C2: for every AS of the predicted snapshot that has training history,
`predict` scores each tracked property through the per-property loop body; the
location property contributes warning 2 exactly when the observed value
differs from the stored mode, every numeric property's warning level is the
uncapped additive sum of 1 for a value outside [robust-min, robust-max] plus
an independent 2 when the standard deviation is positive and the normal-CDF
probability of the z-score lies below 0.05 or above 0.95 — so a single
numeric property can reach warning level 3. -/
theorem c2_predict_weights :
    (∀ cdf mach snap as_id a te,
      ((snap : Snapshot).as_map.map Prod.fst).Nodup →
      (as_id, a) ∈ snap.as_map →
      alookup as_id (Machine.train_data mach) = some te →
      alookup as_id (predict cdf mach snap) = some (some (predictAS cdf te a))) ∧
    (∀ cdf te a p, p ∈ predictPropNames →
      alookup p (predictAS cdf te a) =
        some (predictProp cdf p (getProp a p)
          ((alookup p (TrainEntry.stats te)).getD (sentinelStats "")))) ∧
    (∀ cdf st s,
      (predictProp cdf "location" (.str s) st).warning_level =
        if s ≠ NumStats.mode st then 2 else 0) ∧
    (∀ cdf p obs st, p ≠ "location" →
      (predictProp cdf p obs st).warning_level =
        (if pvalNum obs < NumStats.min st ∨ pvalNum obs > NumStats.max st
          then 1 else 0) +
        (if NumStats.std_d st > 0 ∧
            (cdf ((pvalNum obs - NumStats.mean st) / NumStats.std_d st) < 1 / 20 ∨
             cdf ((pvalNum obs - NumStats.mean st) / NumStats.std_d st) > 19 / 20)
          then 2 else 0)) ∧
    (∃ cdf st q, (predictProp cdf "mid_path_count" (.num q) st).warning_level = 3) := by
  refine ⟨?_, ?_, ?_, ?_, ?_⟩
  · intro cdf mach snap as_id a te hnd hmem hte
    unfold predict
    rw [alookup_map_fst snap.as_map _ hnd as_id a hmem, hte]
  · intro cdf te a p hp
    unfold predictAS
    exact alookup_map_keys predictPropNames _ p hp
  · intro cdf st s
    simp [predictProp]
  · intro cdf p obs st hp
    simp only [predictProp, if_neg hp]
    by_cases h1 : NumStats.std_d st > 0
    · by_cases h2 : cdf ((pvalNum obs - NumStats.mean st) / NumStats.std_d st) < 1 / 20 ∨
          cdf ((pvalNum obs - NumStats.mean st) / NumStats.std_d st) > 19 / 20
      · simp [h1, h2]
      · simp [h1, h2]
    · simp [h1]
  · refine ⟨fun _ => 0,
      { min := 0, max := 1, mean := 0, std_d := 1, skewness := 0, slope := 0,
        mode := "" }, 100, ?_⟩
    simp only [predictProp,
      if_neg (show ¬("mid_path_count" : String) = "location" by decide)]
    norm_num [pvalNum]

/-- C2 (witness): the numeric-property clause applied to `mid_path_count` with
observed value 100 against baseline [0, 1], mean 0, standard deviation 1 and a
constant-zero CDF. -/
theorem c2_witness :
    (predictProp (fun _ => (0 : ℚ)) "mid_path_count" (.num 100)
        { min := 0, max := 1, mean := 0, std_d := 1, skewness := 0, slope := 0,
          mode := "" }).warning_level =
      (if (100 : ℚ) < 0 ∨ (100 : ℚ) > 1 then 1 else 0) +
      (if (1 : ℚ) > 0 ∧
          ((fun _ => (0 : ℚ)) (((100 : ℚ) - 0) / 1) < 1 / 20 ∨
           (fun _ => (0 : ℚ)) (((100 : ℚ) - 0) / 1) > 19 / 20) then 2 else 0) :=
  c2_predict_weights.2.2.2.1 (fun _ => (0 : ℚ)) "mid_path_count" (.num 100)
    { min := 0, max := 1, mean := 0, std_d := 1, skewness := 0, slope := 0,
      mode := "" } (by decide)

/- ===================== Lemmas: dictionary writes in training ===================== -/

theorem alookup_aset {β : Type} (k j : String) (v : β) (l : List (String × β)) :
    alookup j (aset k v l) = if k = j then some v else alookup j l := by
  induction l with
  | nil => by_cases h : k = j <;> simp [aset, alookup, h]
  | cons p l ih =>
    obtain ⟨k', v'⟩ := p
    by_cases h1 : k' = k
    · subst h1
      by_cases h2 : k' = j <;> simp [aset, alookup, h2]
    · by_cases h2 : k' = j
      · subst h2
        have hk : ¬k = k' := fun hc => h1 hc.symm
        simp [aset, alookup, h1, hk]
      · simp [aset, alookup, h1, h2]
        exact ih

theorem alookup_amodify {β : Type} (k j : String) (f : β → β)
    (l : List (String × β)) :
    alookup j (amodify k f l) =
      if k = j then (alookup j l).map f else alookup j l := by
  induction l with
  | nil => by_cases h : k = j <;> simp [amodify, alookup, h]
  | cons p l ih =>
    obtain ⟨k', v'⟩ := p
    by_cases h1 : k' = k
    · subst h1
      by_cases h2 : k' = j <;> simp [amodify, alookup, h2]
    · by_cases h2 : k' = j
      · subst h2
        have hk : ¬k = k' := fun hc => h1 hc.symm
        simp [amodify, alookup, h1, hk]
      · simp [amodify, alookup, h1, h2]
        exact ih

theorem alookup_append_single {β : Type} (l : List (String × β)) (k j : String)
    (v : β) :
    alookup j (l ++ [(k, v)]) =
      match alookup j l with
      | some w => some w
      | none => if k = j then some v else none := by
  induction l with
  | nil => rfl
  | cons p l ih =>
    obtain ⟨k', v'⟩ := p
    by_cases h : k' = j
    · simp [alookup, h]
    · simpa [alookup, h] using ih

theorem alookup_eq_none_iff {β : Type} (j : String) (l : List (String × β)) :
    alookup j l = none ↔ j ∉ l.map Prod.fst := by
  induction l with
  | nil => simp [alookup]
  | cons p l ih =>
    obtain ⟨k', v'⟩ := p
    by_cases h : k' = j
    · subst h
      simp [alookup]
    · simp only [alookup, if_neg h, List.map_cons, List.mem_cons]
      rw [ih]
      constructor
      · intro hn hc
        rcases hc with hc | hc
        · exact h hc.symm
        · exact hn hc
      · intro hn
        exact fun hc => hn (Or.inr hc)

theorem amodify_keys {β : Type} (k : String) (f : β → β)
    (l : List (String × β)) :
    (amodify k f l).map Prod.fst = l.map Prod.fst := by
  induction l with
  | nil => rfl
  | cons p l ih =>
    obtain ⟨k', v'⟩ := p
    by_cases h : k' = k <;> simp [amodify, h] <;> exact ih

theorem foldl_aset_alookup {β γ : Type} (g : γ → β) :
    ∀ (hist : List (String × γ)), (hist.map Prod.fst).Nodup →
      ∀ (init : List (String × β)) (j : String),
      alookup j (hist.foldl (fun td p => aset p.1 (g p.2) td) init) =
        match alookup j hist with
        | some v => some (g v)
        | none => alookup j init := by
  intro hist
  induction hist with
  | nil => intro _ init j; rfl
  | cons p rest ih =>
    intro hnd init j
    obtain ⟨k, he⟩ := p
    simp only [List.map_cons, List.nodup_cons] at hnd
    rw [List.foldl_cons]
    rw [ih hnd.2 (aset k (g he) init) j]
    by_cases hkj : k = j
    · subst hkj
      have hrest : alookup k rest = none :=
        (alookup_eq_none_iff k rest).mpr hnd.1
      rw [hrest]
      simp [alookup, alookup_aset]
    · simp only [alookup, if_neg hkj]
      cases hr : alookup j rest
      · simp [alookup_aset, hkj]
      · rfl

/- ===================== Lemmas: history collection ===================== -/

theorem eq_none_of_not_isSome {β : Type} (o : Option β)
    (h : ¬o.isSome = true) : o = none := by
  cases o with
  | none => rfl
  | some v => simp at h

theorem histStep_isSome (h : List (String × HistEntry)) (k : String) (a : ASProf)
    (j : String) :
    (alookup j (histStep h k a)).isSome = true ↔
      (alookup j h).isSome = true ∨ j = k := by
  unfold histStep
  by_cases hg : (alookup k h).isSome = true
  · rw [if_pos hg, alookup_amodify]
    by_cases hkj : k = j
    · subst hkj
      simp [hg]
    · rw [if_neg hkj]
      have hjk : ¬j = k := fun hc => hkj hc.symm
      simp [hjk]
  · rw [if_neg hg, alookup_amodify, alookup_append_single]
    have hnone : alookup k h = none := eq_none_of_not_isSome _ hg
    by_cases hkj : k = j
    · subst hkj
      rw [hnone]
      simp
    · rw [if_neg hkj]
      have hjk : ¬j = k := fun hc => hkj hc.symm
      cases hr : alookup j h <;> simp [hkj, hjk]

theorem histStep_nodup (h : List (String × HistEntry)) (k : String) (a : ASProf)
    (hnd : (h.map Prod.fst).Nodup) :
    ((histStep h k a).map Prod.fst).Nodup := by
  unfold histStep
  rw [amodify_keys]
  by_cases hg : (alookup k h).isSome = true
  · rw [if_pos hg]
    exact hnd
  · rw [if_neg hg, List.map_append]
    apply List.Nodup.append hnd (by simp)
    intro x hx hy
    simp only [List.map_cons, List.map_nil, List.mem_singleton] at hy
    subst hy
    have hnone : alookup x h = none := eq_none_of_not_isSome _ hg
    exact (alookup_eq_none_iff x h).mp hnone hx

theorem asMapFold_isSome (am : List (String × ASProf)) :
    ∀ (h : List (String × HistEntry)) (j : String),
      (alookup j (am.foldl (fun acc p => histStep acc p.1 p.2) h)).isSome = true ↔
        ((alookup j h).isSome = true ∨ j ∈ am.map Prod.fst) := by
  induction am with
  | nil => intro h j; simp
  | cons p am ih =>
    intro h j
    rw [List.foldl_cons]
    rw [ih (histStep h p.1 p.2) j, histStep_isSome]
    simp only [List.map_cons, List.mem_cons]
    tauto

theorem asMapFold_nodup (am : List (String × ASProf)) :
    ∀ (h : List (String × HistEntry)), (h.map Prod.fst).Nodup →
      (((am.foldl (fun acc p => histStep acc p.1 p.2) h)).map Prod.fst).Nodup := by
  induction am with
  | nil => intro h hnd; exact hnd
  | cons p am ih =>
    intro h hnd
    rw [List.foldl_cons]
    exact ih _ (histStep_nodup h p.1 p.2 hnd)

theorem buildHistory_isSome (snaps : List Snapshot) :
    ∀ (h : List (String × HistEntry)) (j : String),
      (alookup j (snaps.foldl
        (fun hist s => s.as_map.foldl (fun acc p => histStep acc p.1 p.2) hist)
        h)).isSome = true ↔
        ((alookup j h).isSome = true ∨ j ∈ snapIds snaps) := by
  induction snaps with
  | nil => intro h j; simp [snapIds]
  | cons s snaps ih =>
    intro h j
    rw [List.foldl_cons]
    rw [ih _ j, asMapFold_isSome]
    have hids : snapIds (s :: snaps) =
        s.as_map.map Prod.fst ++ snapIds snaps := by
      simp [snapIds]
    rw [hids, List.mem_append]
    tauto

theorem buildHistory_mem (snaps : List Snapshot) (j : String) :
    (alookup j (buildHistory snaps)).isSome = true ↔ j ∈ snapIds snaps := by
  unfold buildHistory
  rw [buildHistory_isSome]
  simp [alookup]

theorem buildHistory_nodup (snaps : List Snapshot) :
    ((buildHistory snaps).map Prod.fst).Nodup := by
  unfold buildHistory
  have : ∀ (ss : List Snapshot) (h : List (String × HistEntry)),
      (h.map Prod.fst).Nodup →
      ((ss.foldl
        (fun hist s => s.as_map.foldl (fun acc p => histStep acc p.1 p.2) hist)
        h).map Prod.fst).Nodup := by
    intro ss
    induction ss with
    | nil => intro h hnd; exact hnd
    | cons s ss ih =>
      intro h hnd
      rw [List.foldl_cons]
      exact ih _ (asMapFold_nodup s.as_map h hnd)
  exact this snaps [] (by simp)

/- ===================== C3: training rebuild ===================== -/

/-- C3 (counterexample): the claim asserts that after a train call,
`train_data` has an entry for exactly the AS-IDs appearing in the given
snapshots; but training first on a snapshot containing only AS "1" and then on
a snapshot containing only AS "2" leaves entries for both — the source never
resets `self.train_data`. -/
theorem c3_counterexample :
    train kernZero c3mach1 [c3snapB] = .ok c3mach2 ∧
    c3mach2.train_data.map Prod.fst = ["1", "2"] ∧
    c3snapB.as_map.map Prod.fst = ["2"] :=
  ⟨rfl, rfl, rfl⟩

/-- C3 (amended): a train call that completes replaces `dataset` with the
deduplicated snapshots sorted (completion requires at most one distinct
snapshot, `SnapShot` defining no ordering); afterwards `train_data` has an
entry for an AS id exactly when the id appears in the given snapshots or was
already present, the entries of the given snapshots' ASes are recomputed
solely from the given snapshots (they equal those a freshly created machine
would compute), and entries for AS ids absent from the given snapshots
persist unchanged from before the call. -/
theorem c3_train (kern : NumKernel) (mach : Machine) (snaps : List Snapshot)
    (m' m0 : Machine)
    (h : train kern mach snaps = .ok m')
    (h0 : train kern newMachine snaps = .ok m0) :
    (∀ j, (alookup j (Machine.train_data m')).isSome = true ↔
      ((alookup j (Machine.train_data mach)).isSome = true ∨
        j ∈ snapIds (Machine.dataset m'))) ∧
    (∀ j, j ∈ snapIds (Machine.dataset m') →
      alookup j (Machine.train_data m') = alookup j (Machine.train_data m0)) ∧
    (∀ j, j ∉ snapIds (Machine.dataset m') →
      alookup j (Machine.train_data m') = alookup j (Machine.train_data mach)) ∧
    Machine.dataset m' = Machine.dataset m0 ∧
    sortSnapshots (pySetDedup snaps) = .ok (Machine.dataset m') := by
  unfold train at h h0
  cases hs : sortSnapshots (pySetDedup snaps) with
  | error e => rw [hs] at h; cases h
  | ok ds =>
    rw [hs] at h h0
    obtain rfl := Except.ok.inj h
    obtain rfl := Except.ok.inj h0
    have hnd := buildHistory_nodup ds
    have hlook := foldl_aset_alookup (computeEntry kern) (buildHistory ds) hnd
    refine ⟨?_, ?_, ?_, rfl, ?_⟩
    · intro j
      rw [hlook (Machine.train_data mach) j]
      rw [← buildHistory_mem ds j]
      cases hb : alookup j (buildHistory ds) <;> simp [hb]
    · intro j hj
      rw [hlook (Machine.train_data mach) j, hlook (Machine.train_data newMachine) j]
      rw [← buildHistory_mem ds j] at hj
      obtain ⟨v, hv⟩ := Option.isSome_iff_exists.mp hj
      rw [hv]
    · intro j hj
      rw [hlook (Machine.train_data mach) j]
      rw [← buildHistory_mem ds j] at hj
      have hjn : alookup j (buildHistory ds) = none := eq_none_of_not_isSome _ hj
      rw [hjn]
    · rfl

/-- C3 (witness): the amended theorem applied to the concrete two-call run;
the entry of AS "1", absent from the second call's snapshot, persists
unchanged. -/
theorem c3_train_witness :
    alookup "1" (Machine.train_data c3mach2) =
      alookup "1" (Machine.train_data c3mach1) :=
  (c3_train kernZero c3mach1 [c3snapB] c3mach2 c3machFresh rfl rfl).2.2.1 "1"
    (by decide)

end BGPAnomaly
